import Mathlib

/- Verification development for the Trax layer-composition core documented in
   `trax/layers/intro.ipynb`.  The notebook quotes the library docstrings for
   `Serial`, `Branch`, `init` and the full source of `Residual`, and records
   concrete input/output pairs for `Relu`, `LayerNorm`, `Serial` and `Branch`.
   The combinator and initialization machinery itself is not part of the
   repository files, so it is modelled from the specification (and from the
   docstrings/outputs the notebook records), as noted on each definition. -/

set_option linter.unusedVariables false

/-- Tensors are modelled as rectangular integer matrices: a row-major list of
rows.  All concrete values appearing in the notebook are small integers, so
integer matrices are enough to express every recorded computation. -/
abbrev Vec := List Int

/-- Tensor: a matrix, list of rows. -/
abbrev Tensor := List Vec

/-- Modelled from the spec: a `ShapeDtype` signature is an immutable shape plus
an element-type tag; equality is structural. -/
structure ShapeDtype where
  shape : List Nat
  dtype : Nat
deriving DecidableEq

/-- Signature of a concrete tensor (matrix): its two dimensions, dtype tag 0
(standing for float32, the only dtype the notebook uses). -/
def sigOfTensor (t : Tensor) : ShapeDtype :=
  ⟨[t.length, (t.headD []).length], 0⟩

/-- PRNG keys are modelled abstractly as naturals; `prngKey seed` is the
backend's key-from-integer-seed constructor. -/
abbrev Key := Nat

/-- Modelled from the spec: the backend derives a single-use random key from an
integer seed; `init` with `rng=None` uses the key for seed 0. -/
def prngKey (seed : Nat) : Key := seed

/-- Modelled from the spec (design note §9): weights (and state) form a
recursive tagged variant - the empty sentinel, leaf-specific data, or an
ordered sequence mirroring a combinator's sublayers. -/
inductive Weights where
  | empty
  | leafData (ws : List Tensor)
  | comp (ws : List Weights)

/-- Behaviour of a leaf layer: declared arity, weight/state creation from a
signature and a random key, the forward function (reading weights), and the
output-signature map (the backend's shape inference, used by the
initialization walk to derive sublayer signatures). -/
structure LeafSpec where
  nIn : Nat
  nOut : Nat
  winit : Key → List ShapeDtype → Weights × Weights
  forward : Weights → List Tensor → Option (List Tensor)
  osig : List ShapeDtype → List ShapeDtype

/-- Modelled from the spec: a layer tree.  `id` is the object identity (two
positions holding the same `id` model one shared Python object).  Combinators
store the `n_in`/`n_out` computed at construction time, exactly as the library
computes and stores them on the object.  `idpass` is the identity pass-through
of one value that a `None` entry in a `Branch` position denotes; it is a
position, not a shared object, so it carries no identity. -/
inductive Layer where
  | idpass
  | leaf (ident : Nat) (spec : LeafSpec)
  | serial (ident : Nat) (nIn nOut : Nat) (sub : List Layer)
  | branch (ident : Nat) (nIn nOut : Nat) (sub : List Layer)

/-- Declared arity of a layer, as stored on the object at construction. -/
def arityOf : Layer → Nat × Nat
  | .idpass => (1, 1)
  | .leaf _ s => (s.nIn, s.nOut)
  | .serial _ i o _ => (i, o)
  | .branch _ i o _ => (i, o)

/-- Object identity of a layer, if it has one. -/
def idOf? : Layer → Option Nat
  | .idpass => none
  | .leaf i _ => some i
  | .serial i _ _ _ => some i
  | .branch i _ _ _ => some i

/-- Net stack growth of a sequence of declared arities (spec §4.2 dry run). -/
def netGain : List (Nat × Nat) → Int
  | [] => 0
  | (i, o) :: r => (o : Int) - (i : Int) + netGain r

/-- Lowest running stack depth reached by the dry-run simulation of a sequence
of declared arities, started from depth 0 (spec §4.2): each step first dips by
its `n_in`, then settles at the net effect plus whatever follows. -/
def minDepth : List (Nat × Nat) → Int
  | [] => 0
  | (i, o) :: r => min (-(i : Int)) ((o : Int) - (i : Int) + minDepth r)

/-- Modelled from the spec (§4.2-4.3): the arity a `Serial` combinator derives
at construction by the dry-run stack-depth simulation - `n_in` is the maximum
depth consumed below the initial depth, `n_out` is `n_in` plus the net stack
growth. -/
def serialArity (ars : List (Nat × Nat)) : Nat × Nat :=
  ((-minDepth ars).toNat, (netGain ars - minDepth ars).toNat)

/-- Maximum of the declared `n_in`s (the `Branch` input arity, spec §4.4). -/
def maxIns : List (Nat × Nat) → Nat
  | [] => 0
  | a :: r => max a.1 (maxIns r)

/-- Sum of the declared `n_out`s (the `Branch` output arity, spec §4.4). -/
def sumOuts : List (Nat × Nat) → Nat
  | [] => 0
  | a :: r => a.2 + sumOuts r

/-- Modelled from the spec: `Serial(*layers)` - computes its arity at
construction time by the dry-run simulation and stores it on the object. -/
def mkSerial (ident : Nat) (ls : List Layer) : Layer :=
  .serial ident (serialArity (ls.map arityOf)).1 (serialArity (ls.map arityOf)).2 ls

/-- Modelled from the spec: `Branch(*layers)` - a `None` argument denotes the
identity pass-through of one value; `n_in` is the max of the sublayers'
`n_in`s and `n_out` the sum of their `n_out`s. -/
def mkBranch (ident : Nat) (opts : List (Option Layer)) : Layer :=
  .branch ident (maxIns ((opts.map (fun o => o.getD .idpass)).map arityOf))
    (sumOuts ((opts.map (fun o => o.getD .idpass)).map arityOf))
    (opts.map (fun o => o.getD .idpass))

/-- Elementwise rectification, as printed by the notebook for `tl.Relu`. -/
def reluT (t : Tensor) : Tensor := t.map (fun row => row.map (fun v => max v 0))

/-- Elementwise scaling by a constant (the notebook's `lambda x: x * 10.0`). -/
def scaleT (c : Int) (t : Tensor) : Tensor := t.map (fun row => row.map (fun v => c * v))

/-- Elementwise sum of two equal-shape matrices (the `Add` merge leaf). -/
def addT (x y : Tensor) : Tensor := List.zipWith (fun r s => List.zipWith (· + ·) r s) x y

/-- Zero matrix of the same shape as the argument. -/
def zeroT (t : Tensor) : Tensor := t.map (fun row => row.map (fun _ => (0 : Int)))

/-- Weight initializer of a weightless layer: the empty sentinels. -/
def pureInit : Key → List ShapeDtype → Weights × Weights := fun _ _ => (.empty, .empty)

/-- The `tl.Relu` leaf: 1 input, 1 output, no weights. -/
def reluSpec : LeafSpec :=
  ⟨1, 1, pureInit,
   fun _ xs => match xs with | [x] => some [reluT x] | _ => none,
   fun s => s⟩

/-- The notebook's `times_10 = tl.Fn(lambda x: x * 10.0)` leaf. -/
def times10Spec : LeafSpec :=
  ⟨1, 1, pureInit,
   fun _ xs => match xs with | [x] => some [scaleT 10 x] | _ => none,
   fun s => s⟩

/-- The `Add` leaf used by `Residual`: 2 inputs, 1 output, elementwise sum. -/
def addSpec : LeafSpec :=
  ⟨2, 1, pureInit,
   fun _ xs => match xs with | [x, y] => some [addT x y] | _ => none,
   fun s => s.take 1⟩

/-- A zero-valued leaf: maps its input to the zero tensor of the same shape. -/
def zeroSpec : LeafSpec :=
  ⟨1, 1, pureInit,
   fun _ xs => match xs with | [x] => some [zeroT x] | _ => none,
   fun s => s⟩

/-- A generic weightless function leaf (the `tl.Fn` / `@layer` pattern): the
declared arity, the underlying pure function, and its shape-inference map. -/
def fnSpec (nI nO : Nat) (f : List Tensor → List Tensor)
    (os : List ShapeDtype → List ShapeDtype) : LeafSpec :=
  ⟨nI, nO, pureInit, fun _ xs => some (f xs), os⟩

/-- Number of features of an input signature: the last dimension of its first
(and for `LayerNorm`, only) tensor. -/
def featuresOf (sig : List ShapeDtype) : Nat :=
  match sig with
  | s :: _ => s.shape.getLastD 0
  | [] => 0

/-- Row-wise application of `LayerNorm`'s elementwise scale and bias. -/
def lnRow (sc bi r : Vec) : Vec :=
  List.zipWith (· + ·) (List.zipWith (· * ·) r sc) bi

/-- The `tl.LayerNorm` leaf.  Its weight initialization follows the weights the
notebook prints after `layer_norm.init(signature(x))`: a scale vector of ones
and a bias vector of zeros, sized to the last input dimension.  Its numeric
forward pass (mean/variance normalization over floats) lies outside the
integer-tensor embedding and is touched by no claim; only the scale-and-bias
application is modelled. -/
def layerNormSpec : LeafSpec :=
  ⟨1, 1,
   fun _ sig =>
     (.leafData [[List.replicate (featuresOf sig) (1 : Int)],
                 [List.replicate (featuresOf sig) (0 : Int)]],
      .empty),
   fun w xs =>
     match w, xs with
     | .leafData [sc, bi], [x] => some [x.map (lnRow (sc.headD []) (bi.headD []))]
     | _, _ => none,
   fun s => s⟩

/-- Leaf layer with a given identity and behaviour. -/
def mkLeaf (ident : Nat) (s : LeafSpec) : Layer := .leaf ident s

mutual
/-- Modelled from the spec (§4.2-4.4) and the `Serial`/`Branch` docstrings
quoted in the notebook: the forward pass.  A layer receives exactly its `n_in`
inputs as a stack whose head is the top item, and returns its `n_out` outputs
as a stack whose head is the top item.  (The `Branch` docstring fixes the
orientation: with `a, b, c` on the stack, `a` topmost, the outputs are
`F(a), G(a, b, c), h1, h2` - the top of stack is the first argument, and the
first output comes back on top.) -/
def Layer.forward : Layer → Weights → List Tensor → Option (List Tensor)
  | .idpass, _, xs => if xs.length = 1 then some xs else none
  | .leaf _ s, w, xs =>
      if xs.length = s.nIn then
        match s.forward w xs with
        | some ys => if ys.length = s.nOut then some ys else none
        | none => none
      else none
  | .serial _ i _ ls, w, xs =>
      match w with
      | .comp ws => if xs.length = i then runSerial ls ws xs else none
      | _ => none
  | .branch _ i _ ls, w, xs =>
      match w with
      | .comp ws => if xs.length = i then runBranch ls ws xs else none
      | _ => none
termination_by l _ _ => sizeOf l

/-- Modelled from the spec (§4.2-4.3): `Serial` applies its sublayers left to
right; each sublayer pops exactly its `n_in` items off the top of the stack
(in order, top item first), and its `n_out` outputs are pushed back with the
first output on top. -/
def runSerial : List Layer → List Weights → List Tensor → Option (List Tensor)
  | [], [], stack => some stack
  | l :: ls, w :: ws, stack =>
      if (arityOf l).1 ≤ stack.length then
        match Layer.forward l w (stack.take (arityOf l).1) with
        | some outs => runSerial ls ws (outs ++ stack.drop (arityOf l).1)
        | none => none
      else none
  | _, _, _ => none
termination_by ls _ _ => sizeOf ls

/-- Modelled from the spec (§4.4): every `Branch` sublayer reads its own
`n_in`-item prefix of the same pre-Branch stack, and the sublayers' outputs
are concatenated in sublayer order (first sublayer's outputs nearest the
top). -/
def runBranch : List Layer → List Weights → List Tensor → Option (List Tensor)
  | [], [], _ => some []
  | l :: ls, w :: ws, stack =>
      if (arityOf l).1 ≤ stack.length then
        match Layer.forward l w (stack.take (arityOf l).1), runBranch ls ws stack with
        | some outs, some rest => some (outs ++ rest)
        | _, _ => none
      else none
  | _, _, _ => none
termination_by ls _ _ => sizeOf ls
end

mutual
/-- Modelled from the spec (§4.6 step 3): signature propagation - the Data
Stack Protocol run over `ShapeDtype` values instead of tensors, used by the
initialization walk to derive each sublayer's input signature. -/
def sigOut : Layer → List ShapeDtype → Option (List ShapeDtype)
  | .idpass, s => if s.length = 1 then some s else none
  | .leaf _ sp, s =>
      if s.length = sp.nIn then
        if (sp.osig s).length = sp.nOut then some (sp.osig s) else none
      else none
  | .serial _ i _ ls, s => if s.length = i then sigSerial ls s else none
  | .branch _ i _ ls, s => if s.length = i then sigBranch ls s else none
termination_by l _ => sizeOf l

/-- Signature stack threaded left to right through a `Serial`'s sublayers. -/
def sigSerial : List Layer → List ShapeDtype → Option (List ShapeDtype)
  | [], stack => some stack
  | l :: ls, stack =>
      if (arityOf l).1 ≤ stack.length then
        match sigOut l (stack.take (arityOf l).1) with
        | some outs => sigSerial ls (outs ++ stack.drop (arityOf l).1)
        | none => none
      else none
termination_by ls _ => sizeOf ls

/-- Signature fan-out over a `Branch`'s sublayers, each reading its own prefix
of the same signature stack. -/
def sigBranch : List Layer → List ShapeDtype → Option (List ShapeDtype)
  | [], _ => some []
  | l :: ls, stack =>
      if (arityOf l).1 ≤ stack.length then
        match sigOut l (stack.take (arityOf l).1), sigBranch ls stack with
        | some outs, some rest => some (outs ++ rest)
        | _, _ => none
      else none
termination_by ls _ => sizeOf ls
end

/-- One record of the identity-keyed initialization store: the signature first
presented to the layer object, and the weights and state computed for it. -/
abbrev StoreEntry := List ShapeDtype × Weights × Weights

/-- The identity-keyed store populated by the initialization walk.  It maps
object identities to their stored entry; earlier entries win (spec §5, "first
writer wins"). -/
abbrev Store := List (Nat × StoreEntry)

/-- First-match lookup in the store. -/
def lookupStore : Store → Nat → Option StoreEntry
  | [], _ => none
  | (i, e) :: r, j => if i = j then some e else lookupStore r j

/-- Record a fresh entry; appending keeps every earlier binding authoritative
(first writer wins). -/
def storePut (st : Store) (i : Nat) (e : StoreEntry) : Store := st ++ [(i, e)]

/-- Errors of the construction-time dry run initialization walk (spec §7). -/
inductive InitErr where
  | sigConflict
  | arityMismatch
  | stackUnderflow
deriving DecidableEq

mutual
/-- Modelled from the spec (§4.6): the recursive initialization walk.  A layer
already present in the identity-keyed store is a no-op returning its stored
`(weights, state)` when the signatures agree and a signature conflict
otherwise; a fresh leaf calls its `new_weights_and_state`; a fresh combinator
derives each sublayer's signature via the stack protocol over signatures,
initializes the sublayers in order, and assembles its own weights and state as
the ordered sequence of theirs.  The returned list logs the identities whose
weights were freshly computed during this call, in completion order. -/
def initL : Layer → List ShapeDtype → Key → Store →
    Except InitErr ((Weights × Weights) × Store × List Nat)
  | .idpass, sig, _, st =>
      if sig.length = 1 then .ok ((.empty, .empty), st, []) else .error .arityMismatch
  | .leaf i sp, sig, k, st =>
      match lookupStore st i with
      | some (sig0, w, s) =>
          if sig0 = sig then .ok ((w, s), st, []) else .error .sigConflict
      | none =>
          if sig.length = sp.nIn then
            .ok (sp.winit k sig,
                 storePut st i (sig, (sp.winit k sig).1, (sp.winit k sig).2), [i])
          else .error .arityMismatch
  | .serial i nI nO ls, sig, k, st =>
      match lookupStore st i with
      | some (sig0, w, s) =>
          if sig0 = sig then .ok ((w, s), st, []) else .error .sigConflict
      | none =>
          if sig.length = nI then
            match initSerial ls sig k st with
            | .ok (ws, ss, st1, log) =>
                .ok ((.comp ws, .comp ss),
                     storePut st1 i (sig, .comp ws, .comp ss), log ++ [i])
            | .error e => .error e
          else .error .arityMismatch
  | .branch i nI nO ls, sig, k, st =>
      match lookupStore st i with
      | some (sig0, w, s) =>
          if sig0 = sig then .ok ((w, s), st, []) else .error .sigConflict
      | none =>
          if sig.length = nI then
            match initBranch ls sig k st with
            | .ok (ws, ss, st1, log) =>
                .ok ((.comp ws, .comp ss),
                     storePut st1 i (sig, .comp ws, .comp ss), log ++ [i])
            | .error e => .error e
          else .error .arityMismatch
termination_by l _ _ _ => sizeOf l

/-- Initialization of a `Serial`'s sublayers, threading the signature stack
and the identity store left to right. -/
def initSerial : List Layer → List ShapeDtype → Key → Store →
    Except InitErr (List Weights × List Weights × Store × List Nat)
  | [], _, _, st => .ok ([], [], st, [])
  | l :: ls, stack, k, st =>
      if (arityOf l).1 ≤ stack.length then
        match initL l (stack.take (arityOf l).1) k st with
        | .ok ((w, s), st1, log1) =>
            match sigOut l (stack.take (arityOf l).1) with
            | some outs =>
                match initSerial ls (outs ++ stack.drop (arityOf l).1) k st1 with
                | .ok (ws, ss, st2, log2) => .ok (w :: ws, s :: ss, st2, log1 ++ log2)
                | .error e => .error e
            | none => .error .arityMismatch
        | .error e => .error e
      else .error .stackUnderflow
termination_by ls _ _ _ => sizeOf ls

/-- Initialization of a `Branch`'s sublayers, each deriving its signature from
its own prefix of the same pre-Branch signature stack, with the identity store
threaded in sublayer order. -/
def initBranch : List Layer → List ShapeDtype → Key → Store →
    Except InitErr (List Weights × List Weights × Store × List Nat)
  | [], _, _, st => .ok ([], [], st, [])
  | l :: ls, stack, k, st =>
      if (arityOf l).1 ≤ stack.length then
        match initL l (stack.take (arityOf l).1) k st with
        | .ok ((w, s), st1, log1) =>
            match initBranch ls stack k st1 with
            | .ok (ws, ss, st2, log2) => .ok (w :: ws, s :: ss, st2, log1 ++ log2)
            | .error e => .error e
        | .error e => .error e
      else .error .stackUnderflow
termination_by ls _ _ _ => sizeOf ls
end

/-- Modelled from the spec and the `init` docstring quoted in the notebook:
`init(input_signature, rng=None)` - when no rng is provided, a default key
derived from the integer seed 0 is used. -/
def Layer.init (l : Layer) (sig : List ShapeDtype) (rng : Option Key) (st : Store) :
    Except InitErr ((Weights × Weights) × Store × List Nat) :=
  initL l sig (rng.getD (prngKey 0)) st

/-- Weights-and-state part of an initialization result, with the store and the
log projected away. -/
def resWS (r : Except InitErr ((Weights × Weights) × Store × List Nat)) :
    Except InitErr (Weights × Weights) :=
  match r with
  | .ok (ws, _, _) => .ok ws
  | .error e => .error e

mutual
/-- Store-free initialization of a tree in which no sharing occurs: the same
walk as `initL`, but with no identity store.  Used to state that on a fresh
(unshared) tree the walk is a pure function of the tree's structure. -/
def freshInit : Layer → List ShapeDtype → Key → Except InitErr (Weights × Weights)
  | .idpass, sig, _ =>
      if sig.length = 1 then .ok (.empty, .empty) else .error .arityMismatch
  | .leaf _ sp, sig, k =>
      if sig.length = sp.nIn then .ok (sp.winit k sig) else .error .arityMismatch
  | .serial _ nI _ ls, sig, k =>
      if sig.length = nI then
        match freshSerial ls sig k with
        | .ok (ws, ss) => .ok (.comp ws, .comp ss)
        | .error e => .error e
      else .error .arityMismatch
  | .branch _ nI _ ls, sig, k =>
      if sig.length = nI then
        match freshBranch ls sig k with
        | .ok (ws, ss) => .ok (.comp ws, .comp ss)
        | .error e => .error e
      else .error .arityMismatch
termination_by l _ _ => sizeOf l

/-- Store-free sublayer initialization for `Serial`. -/
def freshSerial : List Layer → List ShapeDtype → Key →
    Except InitErr (List Weights × List Weights)
  | [], _, _ => .ok ([], [])
  | l :: ls, stack, k =>
      if (arityOf l).1 ≤ stack.length then
        match freshInit l (stack.take (arityOf l).1) k with
        | .ok (w, s) =>
            match sigOut l (stack.take (arityOf l).1) with
            | some outs =>
                match freshSerial ls (outs ++ stack.drop (arityOf l).1) k with
                | .ok (ws, ss) => .ok (w :: ws, s :: ss)
                | .error e => .error e
            | none => .error .arityMismatch
        | .error e => .error e
      else .error .stackUnderflow
termination_by ls _ _ => sizeOf ls

/-- Store-free sublayer initialization for `Branch`. -/
def freshBranch : List Layer → List ShapeDtype → Key →
    Except InitErr (List Weights × List Weights)
  | [], _, _ => .ok ([], [])
  | l :: ls, stack, k =>
      if (arityOf l).1 ≤ stack.length then
        match freshInit l (stack.take (arityOf l).1) k with
        | .ok (w, s) =>
            match freshBranch ls stack k with
            | .ok (ws, ss) => .ok (w :: ws, s :: ss)
            | .error e => .error e
        | .error e => .error e
      else .error .stackUnderflow
termination_by ls _ _ => sizeOf ls
end

mutual
/-- All identity-bearing nodes of a tree, paired with their identities. -/
def idNodes : Layer → List (Nat × Layer)
  | .idpass => []
  | .leaf i sp => [(i, .leaf i sp)]
  | .serial i nI nO ls => (i, .serial i nI nO ls) :: idNodesList ls
  | .branch i nI nO ls => (i, .branch i nI nO ls) :: idNodesList ls
termination_by l => sizeOf l

/-- Identity-bearing nodes of a list of layers, in order. -/
def idNodesList : List Layer → List (Nat × Layer)
  | [] => []
  | l :: ls => idNodes l ++ idNodesList ls
termination_by ls => sizeOf ls
end

/-- All object identities occurring in a tree, in preorder. -/
def layerIds (l : Layer) : List Nat := (idNodes l).map Prod.fst

/-- Identities of a list of layers, in order. -/
def layerIdsList (ls : List Layer) : List Nat := (idNodesList ls).map Prod.fst

/-- A tree's sharing is consistent when any two nodes carrying the same object
identity are the same layer - the faithful reading of Python object identity,
where one object cannot be two different layers. -/
def SharedConsistent (l : Layer) : Prop :=
  ∀ p ∈ idNodes l, ∀ q ∈ idNodes l, p.1 = q.1 → p.2 = q.2

mutual
/-- Well-formed declared arities: every combinator's stored `n_in`/`n_out`
equals what its construction-time computation yields from its sublayers. -/
def wfA : Layer → Bool
  | .idpass => true
  | .leaf _ _ => true
  | .serial _ nI nO ls =>
      (nI == (serialArity (ls.map arityOf)).1) &&
      (nO == (serialArity (ls.map arityOf)).2) && wfAList ls
  | .branch _ nI nO ls =>
      (nI == maxIns (ls.map arityOf)) && (nO == sumOuts (ls.map arityOf)) && wfAList ls
termination_by l => sizeOf l

/-- Well-formed arities for each layer in a list. -/
def wfAList : List Layer → Bool
  | [] => true
  | l :: ls => wfA l && wfAList ls
termination_by ls => sizeOf ls
end

mutual
/-- The weights-shape invariant of spec §3/§9: a leaf (or identity slot) holds
the empty sentinel or leaf data, never a combinator sequence; a combinator
holds an ordered sequence that structurally mirrors its sublayer list. -/
def mirrorsW : Layer → Weights → Bool
  | .idpass, w => match w with | .empty => true | _ => false
  | .leaf _ _, w => match w with | .comp _ => false | _ => true
  | .serial _ _ _ ls, w => match w with | .comp ws => mirrorsList ls ws | _ => false
  | .branch _ _ _ ls, w => match w with | .comp ws => mirrorsList ls ws | _ => false
termination_by l _ => sizeOf l

/-- Pointwise mirroring of a weight sequence against a sublayer list. -/
def mirrorsList : List Layer → List Weights → Bool
  | [], [] => true
  | l :: ls, w :: ws => mirrorsW l w && mirrorsList ls ws
  | _, _ => false
termination_by ls _ => sizeOf ls
end

mutual
/-- Identically-constructed layer trees: the same shape, stored arities and
leaf behaviours, while the object identities may differ (two separate runs of
the same construction code allocate distinct objects). -/
inductive LSim : Layer → Layer → Prop where
  | idpass : LSim .idpass .idpass
  | leaf (i j : Nat) (sp : LeafSpec) : LSim (.leaf i sp) (.leaf j sp)
  | serial (i j nI nO : Nat) (ls ls' : List Layer) :
      LSimList ls ls' → LSim (.serial i nI nO ls) (.serial j nI nO ls')
  | branch (i j nI nO : Nat) (ls ls' : List Layer) :
      LSimList ls ls' → LSim (.branch i nI nO ls) (.branch j nI nO ls')

/-- Pointwise `LSim` on sublayer lists. -/
inductive LSimList : List Layer → List Layer → Prop where
  | nil : LSimList [] []
  | cons {l l' : Layer} {ls ls' : List Layer} :
      LSim l l' → LSimList ls ls' → LSimList (l :: ls) (l' :: ls')
end

/-- Dry-run underflow check of spec §4.3/§8: replay the declared arities from
a starting depth and verify that no step pops below zero. -/
def runDepthOk : Int → List (Nat × Nat) → Bool
  | _, [] => true
  | d, (i, o) :: r => decide ((i : Int) ≤ d) && runDepthOk (d - i + o) r

/-- Modelled from the spec (§4.3, §8): `Serial` construction with the
construction-time arity check - the dry-run simulation from the derived
`n_in` placeholders must never pop below zero, else `StackUnderflowError`. -/
def mkSerialChecked (ident : Nat) (ls : List Layer) : Except InitErr Layer :=
  if runDepthOk ((serialArity (ls.map arityOf)).1 : Int) (ls.map arityOf) then
    .ok (mkSerial ident ls)
  else .error .stackUnderflow

/-- The `Residual` source quoted in the notebook: the optional shortcut
(default `None`, the no-op copy), a single given layer used directly -
`layers[0] if len(layers) == 1` - or the series wrapped in `Serial`, then
`Serial(Branch(shortcut, layer), Add())`.  Fresh identities are drawn from
`base`. -/
def mkResidual (base : Nat) (shortcut : Option Layer) (layers : List Layer) : Layer :=
  mkSerial base
    [mkBranch (base + 1)
      [shortcut, some (match layers with | [l] => l | ls => mkSerial (base + 2) ls)],
     mkLeaf (base + 3) addSpec]

/-- The variant of `Residual` that always wraps the layer series in `Serial`,
also for a single layer; used to state that the `layers[0]` shortcut in the
source is behaviour-preserving. -/
def mkResidualWrapped (base : Nat) (shortcut : Option Layer) (layers : List Layer) : Layer :=
  mkSerial base
    [mkBranch (base + 1) [shortcut, some (mkSerial (base + 2) layers)],
     mkLeaf (base + 3) addSpec]

/-- The notebook's Example 5 composite: `tl.Branch(relu, times_10)`. -/
def branchReluT10 : Layer :=
  mkBranch 0 [some (mkLeaf 1 reluSpec), some (mkLeaf 2 times10Spec)]

/-- The notebook's Example 4 composite: `tl.Serial(tl.Relu(), tl.LayerNorm())`. -/
def layerBlock : Layer :=
  mkSerial 0 [mkLeaf 1 reluSpec, mkLeaf 2 layerNormSpec]

/-- The notebook's 3x5 input `floats_in_range(-7, 8).reshape(3, -1)`. -/
def xNotebook : Tensor :=
  [[-7, -6, -5, -4, -3], [-2, -1, 0, 1, 2], [3, 4, 5, 6, 7]]

/-- An order-sensitive 2-in/1-out leaf: subtracts its second argument from its
first.  Used to observe which popped item becomes which positional argument. -/
def subSpec : LeafSpec :=
  ⟨2, 1, pureInit,
   fun _ xs => match xs with | [x, y] => some [addT x (scaleT (-1) y)] | _ => none,
   fun s => s.take 1⟩

/-- An order-sensitive 1-in/2-out leaf: returns its input and ten times its
input, in that order.  Used to observe where each output lands on the stack. -/
def splitSpec : LeafSpec :=
  ⟨1, 2, pureInit,
   fun _ xs => match xs with | [x] => some [x, scaleT 10 x] | _ => none,
   fun s => s ++ s⟩

/-- Sharing consistency across a list of sibling layers (any two
identity-bearing nodes of the whole list with equal identity are equal). -/
def SharedConsistentList (ls : List Layer) : Prop :=
  ∀ p ∈ idNodesList ls, ∀ q ∈ idNodesList ls, p.1 = q.1 → p.2 = q.2

/-- Every leaf of the tree creates weights and state of leaf shape (the empty
sentinel or leaf data, never a combinator sequence) - true of every leaf the
notebook uses, and the shape contract of `new_weights_and_state`. -/
def LeafInitsOk (l : Layer) : Prop :=
  ∀ p ∈ idNodes l, ∀ i sp, p.2 = Layer.leaf i sp →
    ∀ k sig, mirrorsW (.leaf i sp) (sp.winit k sig).1 = true ∧
             mirrorsW (.leaf i sp) (sp.winit k sig).2 = true

/-- Weights-and-state projection of a sublayer-list initialization result. -/
def resLWS (r : Except InitErr (List Weights × List Weights × Store × List Nat)) :
    Except InitErr (List Weights × List Weights) :=
  match r with
  | .ok (ws, ss, _, _) => .ok (ws, ss)
  | .error e => .error e

/-- Store threading facts of a successful initialization call: the store only
grows (first writer wins), entries appear exactly for the logged identities,
every logged identity belongs to the tree and was unseen before, and - when
the tree's sharing is consistent - no identity is computed twice and the
layer's own identity ends up mapped to exactly the returned result. -/
def InitP (L : Layer) : Prop :=
  ∀ sig k st w s st' log, initL L sig k st = .ok ((w, s), st', log) →
    (∀ j e, lookupStore st j = some e → lookupStore st' j = some e) ∧
    (∀ j, lookupStore st j = none → lookupStore st' j ≠ none → j ∈ layerIds L) ∧
    (∀ j, j ∈ log → lookupStore st j = none) ∧
    (∀ j, j ∈ log → lookupStore st' j ≠ none) ∧
    (∀ j, j ∈ log → j ∈ layerIds L) ∧
    (SharedConsistent L → log.Nodup) ∧
    (SharedConsistent L → ∀ i, idOf? L = some i → lookupStore st' i = some (sig, w, s))

/-- The list-level counterpart of `InitP` for a run of `initSerial` or
`initBranch` over sibling sublayers. -/
def InitQ (run : List Layer → List ShapeDtype → Key → Store →
    Except InitErr (List Weights × List Weights × Store × List Nat))
    (ls : List Layer) : Prop :=
  ∀ sig k st ws ss st' log, run ls sig k st = .ok (ws, ss, st', log) →
    (∀ j e, lookupStore st j = some e → lookupStore st' j = some e) ∧
    (∀ j, lookupStore st j = none → lookupStore st' j ≠ none → j ∈ layerIdsList ls) ∧
    (∀ j, j ∈ log → lookupStore st j = none) ∧
    (∀ j, j ∈ log → lookupStore st' j ≠ none) ∧
    (∀ j, j ∈ log → j ∈ layerIdsList ls) ∧
    (SharedConsistentList ls → log.Nodup)

/-- The leaf-shape contract of `new_weights_and_state` for every leaf in a
sibling list (the list-level counterpart of `LeafInitsOk`). -/
def LeafInitsOkList (ls : List Layer) : Prop :=
  ∀ p ∈ idNodesList ls, ∀ i sp, p.2 = Layer.leaf i sp →
    ∀ k sig, mirrorsW (.leaf i sp) (sp.winit k sig).1 = true ∧
             mirrorsW (.leaf i sp) (sp.winit k sig).2 = true

/-- The store respects the weights-shape invariant relative to a tree: every
stored entry whose identity names a node of the tree holds weights and state
that mirror that node. -/
def StoreMir (st : Store) (l : Layer) : Prop :=
  ∀ p ∈ idNodes l, ∀ e, lookupStore st p.1 = some e →
    mirrorsW p.2 e.2.1 = true ∧ mirrorsW p.2 e.2.2 = true

/-- `StoreMir` relative to a sibling list. -/
def StoreMirList (st : Store) (ls : List Layer) : Prop :=
  ∀ p ∈ idNodesList ls, ∀ e, lookupStore st p.1 = some e →
    mirrorsW p.2 e.2.1 = true ∧ mirrorsW p.2 e.2.2 = true

/-- The weights-shape preservation property of one initialization call: under
consistent sharing, shape-respecting leaf initializers and a shape-respecting
store, the returned weights and state mirror the layer and every entry the
call adds to the store mirrors the tree node it was computed for. -/
def MirP (l : Layer) : Prop :=
  ∀ sig k st w s st' log, SharedConsistent l → LeafInitsOk l → StoreMir st l →
    initL l sig k st = .ok ((w, s), st', log) →
    mirrorsW l w = true ∧ mirrorsW l s = true ∧
    (∀ j e, lookupStore st j = none → lookupStore st' j = some e →
      ∃ p ∈ idNodes l, p.1 = j ∧ mirrorsW p.2 e.2.1 = true ∧ mirrorsW p.2 e.2.2 = true)

/- ------------------------------------------------------------------ -/
/- Arithmetic facts about the construction-time dry-run simulation.   -/
/- ------------------------------------------------------------------ -/

lemma minDepth_nonpos (ars : List (Nat × Nat)) : minDepth ars ≤ 0 := by
  induction ars with
  | nil => simp [minDepth]
  | cons a r ih =>
      obtain ⟨i, o⟩ := a
      simp only [minDepth]
      have : -(i : Int) ≤ 0 := by omega
      exact le_trans (min_le_left _ _) this

lemma minDepth_le_net (ars : List (Nat × Nat)) : minDepth ars ≤ netGain ars := by
  induction ars with
  | nil => simp [minDepth, netGain]
  | cons a r ih =>
      obtain ⟨i, o⟩ := a
      simp only [minDepth, netGain]
      have h2 : (o : Int) - i + minDepth r ≤ (o : Int) - i + netGain r := by omega
      exact le_trans (min_le_right _ _) h2

lemma runDepthOk_of_le (ars : List (Nat × Nat)) : ∀ d : Int,
    -minDepth ars ≤ d → runDepthOk d ars = true := by
  induction ars with
  | nil => intro d _; rw [runDepthOk]
  | cons a r ih =>
      intro d h
      obtain ⟨i, o⟩ := a
      rw [runDepthOk]
      simp only [Bool.and_eq_true, decide_eq_true_eq]
      rcases min_cases (-(i : Int)) ((o : Int) - i + minDepth r) with ⟨heq, hle⟩ | ⟨heq, hle⟩ <;>
        rw [minDepth, heq] at h
      · refine ⟨by omega, ih _ (by omega)⟩
      · refine ⟨by omega, ih _ (by omega)⟩

lemma serialArity_singleton (a : Nat × Nat) : serialArity [a] = a := by
  obtain ⟨i, o⟩ := a
  have hmin : minDepth [(i, o)] = -(i : Int) := by
    rw [minDepth, minDepth]
    exact min_eq_left (by omega)
  have hnet : netGain [(i, o)] = (o : Int) - i := by
    rw [netGain, netGain]; omega
  rw [serialArity, hmin, hnet, Prod.mk.injEq]
  constructor <;> omega

lemma wfAList_mem {ls : List Layer} (h : wfAList ls = true) : ∀ l ∈ ls, wfA l = true := by
  induction ls with
  | nil => simp
  | cons a r ih =>
      rw [wfAList] at h
      simp only [Bool.and_eq_true] at h
      intro l hl
      rcases List.mem_cons.mp hl with rfl | hmem
      · exact h.1
      · exact ih h.2 l hmem

/- ------------------------------------------------------------------ -/
/- Soundness of the stack protocol with respect to declared arities.  -/
/- ------------------------------------------------------------------ -/

lemma forward_arity_none (l : Layer) (w : Weights) (xs : List Tensor)
    (h : xs.length ≠ (arityOf l).1) : Layer.forward l w xs = none := by
  cases l with
  | idpass => simp [arityOf] at h; rw [Layer.forward]; simp [h]
  | leaf i sp => simp [arityOf] at h; rw [Layer.forward]; simp [h]
  | serial i a b ls =>
      simp [arityOf] at h
      rw [Layer.forward.eq_def]
      cases w <;> simp [h]
  | branch i a b ls =>
      simp [arityOf] at h
      rw [Layer.forward.eq_def]
      cases w <;> simp [h]

lemma runSerialLenAux (ls : List Layer)
    (P : ∀ l ∈ ls, ∀ w xs outs, wfA l = true → Layer.forward l w xs = some outs →
      outs.length = (arityOf l).2)
    (hwf : ∀ l ∈ ls, wfA l = true) :
    ∀ ws stack stack', runSerial ls ws stack = some stack' →
      (stack'.length : Int) = stack.length + netGain (ls.map arityOf) := by
  induction ls with
  | nil =>
      intro ws stack stack' h
      cases ws with
      | nil => rw [runSerial] at h; cases h; simp [netGain]
      | cons w ws' => simp [runSerial] at h
  | cons l ls ih =>
      intro ws stack stack' h
      cases ws with
      | nil => simp [runSerial] at h
      | cons w ws' =>
          rw [runSerial] at h
          split at h
          case isTrue hle =>
            cases hfwd : Layer.forward l w (stack.take (arityOf l).1) with
            | none => rw [hfwd] at h; cases h
            | some outs =>
                rw [hfwd] at h
                have hlen := P l (List.mem_cons_self l ls) w _ outs
                  (hwf l (List.mem_cons_self l ls)) hfwd
                have hrest := ih (fun l' hl' => P l' (List.mem_cons_of_mem l hl'))
                  (fun l' hl' => hwf l' (List.mem_cons_of_mem l hl')) ws' _ _ h
                rw [List.map_cons, netGain]
                rw [List.length_append, hlen, List.length_drop] at hrest
                omega
          case isFalse => cases h

lemma runBranchLenAux (ls : List Layer)
    (P : ∀ l ∈ ls, ∀ w xs outs, wfA l = true → Layer.forward l w xs = some outs →
      outs.length = (arityOf l).2)
    (hwf : ∀ l ∈ ls, wfA l = true) :
    ∀ ws stack outs, runBranch ls ws stack = some outs →
      outs.length = sumOuts (ls.map arityOf) := by
  induction ls with
  | nil =>
      intro ws stack outs h
      cases ws with
      | nil => rw [runBranch] at h; cases h; simp [sumOuts]
      | cons w ws' => simp [runBranch] at h
  | cons l ls ih =>
      intro ws stack outs h
      cases ws with
      | nil => simp [runBranch] at h
      | cons w ws' =>
          rw [runBranch] at h
          split at h
          case isTrue hle =>
            cases hfwd : Layer.forward l w (stack.take (arityOf l).1) with
            | none => rw [hfwd] at h; simp at h
            | some outs1 =>
                rw [hfwd] at h
                cases hrest : runBranch ls ws' stack with
                | none => rw [hrest] at h; simp at h
                | some rest =>
                    rw [hrest] at h
                    simp only [Option.some.injEq] at h
                    subst h
                    have hlen := P l (List.mem_cons_self l ls) w _ outs1
                      (hwf l (List.mem_cons_self l ls)) hfwd
                    have hr := ih (fun l' hl' => P l' (List.mem_cons_of_mem l hl'))
                      (fun l' hl' => hwf l' (List.mem_cons_of_mem l hl')) ws' stack rest hrest
                    simp [List.map_cons, sumOuts, hlen, hr]
          case isFalse => cases h

lemma forwardLenAux : ∀ (n : Nat) (l : Layer), sizeOf l ≤ n →
    ∀ w xs outs, wfA l = true → Layer.forward l w xs = some outs →
      outs.length = (arityOf l).2 := by
  intro n
  induction n with
  | zero => intro l hl; exfalso; cases l <;> simp at hl
  | succ n ih =>
      intro l hl w xs outs hwf hfwd
      cases l with
      | idpass =>
          rw [Layer.forward] at hfwd
          split at hfwd
          · cases hfwd; simp_all [arityOf]
          · cases hfwd
      | leaf i sp =>
          rw [Layer.forward] at hfwd
          by_cases hx : xs.length = sp.nIn
          · rw [if_pos hx] at hfwd
            cases hys : sp.forward w xs with
            | none => rw [hys] at hfwd; cases hfwd
            | some ys =>
                rw [hys] at hfwd
                dsimp only at hfwd
                by_cases hy : ys.length = sp.nOut
                · rw [if_pos hy] at hfwd
                  simp only [Option.some.injEq] at hfwd
                  subst hfwd
                  simp [arityOf, hy]
                · rw [if_neg hy] at hfwd; cases hfwd
          · rw [if_neg hx] at hfwd; cases hfwd
      | serial i a b ls =>
          have hsub : sizeOf ls ≤ n := by
            have := Layer.serial.sizeOf_spec i a b ls
            omega
          have hmem : ∀ l' ∈ ls, sizeOf l' ≤ n := by
            intro l' hl'
            have := List.sizeOf_lt_of_mem hl'
            omega
          rw [wfA] at hwf
          simp only [Bool.and_eq_true, beq_iff_eq] at hwf
          obtain ⟨⟨ha, hb⟩, hwfl⟩ := hwf
          cases w with
          | empty => rw [Layer.forward.eq_def] at hfwd; simp at hfwd
          | leafData d => rw [Layer.forward.eq_def] at hfwd; simp at hfwd
          | comp ws =>
              rw [Layer.forward] at hfwd
              split at hfwd
              case isTrue hxs =>
                have hlen := runSerialLenAux ls
                  (fun l' hl' => ih l' (hmem l' hl'))
                  (wfAList_mem hwfl) ws xs outs hfwd
                have hnp := minDepth_nonpos (ls.map arityOf)
                have hln := minDepth_le_net (ls.map arityOf)
                simp only [arityOf]
                rw [serialArity] at ha hb
                simp only at ha hb
                rw [hxs, ha] at hlen
                omega
              case isFalse => cases hfwd
      | branch i a b ls =>
          have hsub : sizeOf ls ≤ n := by
            have := Layer.branch.sizeOf_spec i a b ls
            omega
          have hmem : ∀ l' ∈ ls, sizeOf l' ≤ n := by
            intro l' hl'
            have := List.sizeOf_lt_of_mem hl'
            omega
          rw [wfA] at hwf
          simp only [Bool.and_eq_true, beq_iff_eq] at hwf
          obtain ⟨⟨ha, hb⟩, hwfl⟩ := hwf
          cases w with
          | empty => rw [Layer.forward.eq_def] at hfwd; simp at hfwd
          | leafData d => rw [Layer.forward.eq_def] at hfwd; simp at hfwd
          | comp ws =>
              rw [Layer.forward] at hfwd
              split at hfwd
              case isTrue hxs =>
                have hlen := runBranchLenAux ls
                  (fun l' hl' => ih l' (hmem l' hl'))
                  (wfAList_mem hwfl) ws xs outs hfwd
                simp only [arityOf]
                omega
              case isFalse => cases hfwd

/-- Output-count soundness of the forward pass: on a layer whose declared
arities are well formed, a successful forward call returns exactly its
declared `n_out` values. -/
lemma forwardLen (l : Layer) (w : Weights) (xs outs : List Tensor)
    (hwf : wfA l = true) (h : Layer.forward l w xs = some outs) :
    outs.length = (arityOf l).2 :=
  forwardLenAux (sizeOf l) l (le_refl _) w xs outs hwf h

lemma arity_mkSerial_singleton (ident : Nat) (L : Layer) :
    arityOf (mkSerial ident [L]) = arityOf L := by
  rw [mkSerial, arityOf, List.map_cons, List.map_nil, serialArity_singleton]

/-- Wrapping a single layer in `Serial` preserves its forward behaviour. -/
lemma forward_wrap (ident : Nat) (L : Layer) (w : Weights) (xs : List Tensor) :
    Layer.forward (mkSerial ident [L]) (.comp [w]) xs = Layer.forward L w xs := by
  rw [mkSerial, List.map_cons, List.map_nil, serialArity_singleton]
  rw [Layer.forward]
  by_cases hx : xs.length = (arityOf L).1
  · rw [if_pos hx]
    rw [runSerial]
    rw [if_pos (le_of_eq hx.symm)]
    rw [← hx, List.take_length, List.drop_length]
    cases hf : Layer.forward L w xs with
    | none => rfl
    | some outs => simp [runSerial]
  · rw [if_neg hx, forward_arity_none L w xs hx]

lemma branch_wrap (b2 ident : Nat) (sc : Option Layer) (L : Layer) (wsc w : Weights) :
    arityOf (mkBranch ident [sc, some (mkSerial b2 [L])]) =
      arityOf (mkBranch ident [sc, some L]) ∧
    ∀ xs, Layer.forward (mkBranch ident [sc, some (mkSerial b2 [L])])
        (.comp [wsc, .comp [w]]) xs =
      Layer.forward (mkBranch ident [sc, some L]) (.comp [wsc, w]) xs := by
  have ha := arity_mkSerial_singleton b2 L
  constructor
  · rw [mkBranch, mkBranch]
    simp only [List.map_cons, List.map_nil, Option.getD_some]
    rw [ha]
    rfl
  · intro xs
    rw [mkBranch, mkBranch]
    simp only [List.map_cons, List.map_nil, Option.getD_some]
    rw [ha]
    simp only [Layer.forward, runBranch, forward_wrap]
    rw [ha]

lemma serial2_congr (ident : Nat) (A B1 B2 : Layer) (wa w1 w2 : Weights)
    (hb : arityOf B2 = arityOf B1)
    (hfw : ∀ xs, Layer.forward B2 w2 xs = Layer.forward B1 w1 xs) :
    ∀ xs, Layer.forward (mkSerial ident [B2, A]) (.comp [w2, wa]) xs =
      Layer.forward (mkSerial ident [B1, A]) (.comp [w1, wa]) xs := by
  intro xs
  rw [mkSerial, mkSerial]
  simp only [List.map_cons, List.map_nil]
  rw [hb]
  simp only [Layer.forward, runSerial]
  rw [hb, hfw]

lemma add_zero_row (r : Vec) :
    List.zipWith (· + ·) r (r.map (fun _ => (0 : Int))) = r := by
  induction r with
  | nil => rfl
  | cons a t ih => rw [List.map_cons, List.zipWith_cons_cons, add_zero, ih]

lemma addT_zeroT (x : Tensor) : addT x (zeroT x) = x := by
  induction x with
  | nil => rfl
  | cons r t ih =>
      rw [addT, zeroT] at ih ⊢
      rw [List.map_cons, List.zipWith_cons_cons, add_zero_row, ih]

/- ------------------------------------------------------------------ -/
/- Claim theorems: the stack protocol and the combinators.            -/
/- ------------------------------------------------------------------ -/

/-- C1 (corrected claim).  For every sublayer `k` of a `Serial` and any data
stack deep enough, one step of the composite's forward pops exactly `k.n_in`
items off the top, preserving their order with the item nearest the top as
the FIRST positional argument (not the last, as the claim stated), calls `k`
on them, and pushes `k`'s exactly `n_out` outputs back with the first output
nearest the top (not deepest, as the claim stated). -/
theorem serial_step_pop_push (k : Layer) (ls : List Layer) (w : Weights)
    (ws : List Weights) (stack outs : List Tensor)
    (hdepth : (arityOf k).1 ≤ stack.length) (hwf : wfA k = true)
    (hfwd : Layer.forward k w (stack.take (arityOf k).1) = some outs) :
    outs.length = (arityOf k).2 ∧
    runSerial (k :: ls) (w :: ws) stack =
      runSerial ls ws (outs ++ stack.drop (arityOf k).1) := by
  refine ⟨forwardLen k w _ outs hwf hfwd, ?_⟩
  rw [runSerial, if_pos hdepth, hfwd]

/-- Witness for `serial_step_pop_push`: the 2-in/1-out subtraction leaf inside
a `Serial`, on the concrete stack `[5], [3]` (5 on top), returning `5-3`. -/
theorem serial_step_pop_push_witness :
    ([[[2]]] : List Tensor).length = (arityOf (mkLeaf 1 subSpec)).2 ∧
    runSerial [mkLeaf 1 subSpec] [.empty] [[[5]], [[3]]] =
      runSerial [] [] ([[[2]]] ++ List.drop (arityOf (mkLeaf 1 subSpec)).1 [[[5]], [[3]]]) :=
  serial_step_pop_push (mkLeaf 1 subSpec) [] .empty [] [[[5]], [[3]]] [[[2]]]
    (by simp [mkLeaf, subSpec, arityOf])
    (by simp [mkLeaf, wfA])
    (by simp [mkLeaf, subSpec, arityOf, Layer.forward, List.take, addT, scaleT])

/-- C1 counterexample.  The claim's ordering clauses fail on the code's
convention (fixed by the `Branch` docstring in the notebook): `Serial` of a
first-minus-second subtraction leaf on the stack `[5], [3]` (5 on top) returns
`5 - 3 = 2`, whereas under the claim's reversed pop order the call would be
`sub(3, 5) = -2`; and `Serial` of a 1-in/2-out leaf `x ↦ (x, 10x)` on `[1]`
leaves the FIRST output `x` on top, not deepest as the claim's push clause
demands. -/
theorem serial_pop_order_counterexample :
    Layer.forward (mkSerial 0 [mkLeaf 1 subSpec]) (.comp [.empty]) [[[5]], [[3]]] =
      some [[[2]]] ∧
    subSpec.forward .empty [[[3]], [[5]]] = some [[[-2]]] ∧
    Layer.forward (mkSerial 0 [mkLeaf 2 splitSpec]) (.comp [.empty]) [[[1]]] =
      some [[[1]], [[10]]] := by
  refine ⟨?_, ?_, ?_⟩ <;>
    simp [mkSerial, mkLeaf, Layer.forward, runSerial, arityOf, subSpec, splitSpec,
      serialArity, minDepth, netGain, List.take, List.drop, addT, scaleT]

/-- C2 (confirmed).  The `Branch` fan-out law of the docstring quoted in the
notebook: for any sublayers `F : 1→1`, `G : 3→1`, `H : 2→2`, the composite
`Branch(F, G, H)` declares `n_in = 3`, `n_out = 4`, and on the stack
`a, b, c` (with `a` on top, all three sublayers reading the same pre-Branch
stack) produces exactly `F(a), G(a,b,c), h1, h2` where `(h1, h2) = H(a, b)`,
in that order. -/
theorem branch_fanout_law (f g h : List Tensor → List Tensor)
    (osf osg osh : List ShapeDtype → List ShapeDtype)
    (a b c fa ga h1 h2 : Tensor)
    (hf : f [a] = [fa]) (hg : g [a, b, c] = [ga]) (hh : h [a, b] = [h1, h2]) :
    arityOf (mkBranch 0 [some (mkLeaf 1 (fnSpec 1 1 f osf)),
                         some (mkLeaf 2 (fnSpec 3 1 g osg)),
                         some (mkLeaf 3 (fnSpec 2 2 h osh))]) = (3, 4) ∧
    Layer.forward
      (mkBranch 0 [some (mkLeaf 1 (fnSpec 1 1 f osf)),
                   some (mkLeaf 2 (fnSpec 3 1 g osg)),
                   some (mkLeaf 3 (fnSpec 2 2 h osh))])
      (.comp [.empty, .empty, .empty]) [a, b, c] = some [fa, ga, h1, h2] := by
  constructor
  · simp [mkBranch, mkLeaf, arityOf, fnSpec, maxIns, sumOuts]
  · simp [mkBranch, mkLeaf, Layer.forward, runBranch, arityOf, fnSpec, maxIns, sumOuts,
      List.take, List.drop, hf, hg, hh]

/-- Witness for `branch_fanout_law` at concrete functions and tensors. -/
theorem branch_fanout_law_witness :
    arityOf (mkBranch 0 [some (mkLeaf 1 (fnSpec 1 1 (fun xs => xs.take 1) id)),
                         some (mkLeaf 2 (fnSpec 3 1 (fun _ => [[[5]]]) id)),
                         some (mkLeaf 3 (fnSpec 2 2 (fun _ => [[[6]], [[7]]]) id))]) =
      (3, 4) ∧
    Layer.forward
      (mkBranch 0 [some (mkLeaf 1 (fnSpec 1 1 (fun xs => xs.take 1) id)),
                   some (mkLeaf 2 (fnSpec 3 1 (fun _ => [[[5]]]) id)),
                   some (mkLeaf 3 (fnSpec 2 2 (fun _ => [[[6]], [[7]]]) id))])
      (.comp [.empty, .empty, .empty]) [[[1]], [[2]], [[3]]] =
      some [[[1]], [[5]], [[6]], [[7]]] :=
  branch_fanout_law (fun xs => xs.take 1) (fun _ => [[[5]]]) (fun _ => [[[6]], [[7]]])
    id id id [[1]] [[2]] [[3]] [[1]] [[5]] [[6]] [[7]] rfl rfl rfl

/-- C4 (confirmed, with the error branch unreachable).  `Serial` construction
computes its arity by the dry-run stack-depth simulation before any data is
touched; with the derived `n_in` the replay never pops below zero, so every
sequence of declared arities is compatible, checked construction always
returns the constructed layer (never `StackUnderflowError`), and the stored
`n_in`/`n_out` equal the dry-run result. -/
theorem serial_construction_arity (ident : Nat) (ls : List Layer) :
    runDepthOk ((serialArity (ls.map arityOf)).1 : Int) (ls.map arityOf) = true ∧
    mkSerialChecked ident ls = .ok (mkSerial ident ls) ∧
    arityOf (mkSerial ident ls) = serialArity (ls.map arityOf) := by
  have h1 : runDepthOk ((serialArity (ls.map arityOf)).1 : Int) (ls.map arityOf) = true := by
    apply runDepthOk_of_le
    have := minDepth_nonpos (ls.map arityOf)
    simp only [serialArity]
    omega
  refine ⟨h1, ?_, rfl⟩
  rw [mkSerialChecked, if_pos h1]

/-- C6 (corrected claim).  `Residual` is exactly the composition
`Serial(Branch(shortcut, layer_series), Add)` with no special-casing, and the
residual identity holds for a ZERO-VALUED inner layer: `x + 0 = x`.  (The
claim's `Residual(Serial())` variant is refuted separately: an empty `Serial`
is a 0-in/0-out no-op, so that composite takes two inputs and adds them.) -/
theorem residual_composition_zero_inner :
    (∀ (base : Nat) (sc : Option Layer) (layers : List Layer),
      mkResidual base sc layers =
        mkSerial base
          [mkBranch (base + 1)
            [sc, some (match layers with | [l] => l | ls => mkSerial (base + 2) ls)],
           mkLeaf (base + 3) addSpec]) ∧
    ∀ x : Tensor, Layer.forward (mkResidual 0 none [mkLeaf 9 zeroSpec])
      (.comp [.comp [.empty, .empty], .empty]) [x] = some [x] := by
  refine ⟨fun _ _ _ => rfl, fun x => ?_⟩
  simp [mkResidual, mkSerial, mkBranch, mkLeaf, Layer.forward, runSerial, runBranch,
    arityOf, zeroSpec, addSpec, serialArity, minDepth, netGain, maxIns, sumOuts,
    List.take, List.drop, addT_zeroT]

/-- C6 counterexample.  `Residual(Serial())` with the default shortcut is NOT
the identity on one input: the empty `Serial` is 0-in/0-out, so the composite
declares `n_in = 2`, rejects a single input, and on two inputs computes their
sum - not `x ↦ x`. -/
theorem residual_empty_serial_counterexample :
    arityOf (mkResidual 0 none [mkSerial 4 []]) = (2, 1) ∧
    Layer.forward (mkResidual 0 none [mkSerial 4 []])
      (.comp [.comp [.empty, .comp []], .empty]) [[[1]]] = none ∧
    Layer.forward (mkResidual 0 none [mkSerial 4 []])
      (.comp [.comp [.empty, .comp []], .empty]) [[[1]], [[4]]] = some [[[5]]] := by
  refine ⟨?_, ?_, ?_⟩ <;>
    simp [mkResidual, mkSerial, mkBranch, mkLeaf, Layer.forward, runSerial, runBranch,
      arityOf, addSpec, serialArity, minDepth, netGain, maxIns, sumOuts,
      List.take, List.drop, addT]

/-- C7 (confirmed).  `Branch` arity law - `n_in` is the max of the sublayers'
`n_in`s and `n_out` the sum of their `n_out`s - and the notebook's Example 5:
`Branch(relu, times_10)` on the 3x5 input reports `n_in = 1`, `n_out = 2` and
returns the rectified matrix and the matrix scaled by 10, exactly as the
notebook prints them. -/
theorem branch_arity_law_and_example :
    (∀ (ident : Nat) (opts : List (Option Layer)),
      arityOf (mkBranch ident opts) =
        (maxIns (opts.map (fun o => arityOf (o.getD .idpass))),
         sumOuts (opts.map (fun o => arityOf (o.getD .idpass))))) ∧
    arityOf branchReluT10 = (1, 2) ∧
    Layer.forward branchReluT10 (.comp [.empty, .empty]) [xNotebook] =
      some [[[0, 0, 0, 0, 0], [0, 0, 0, 1, 2], [3, 4, 5, 6, 7]],
            [[-70, -60, -50, -40, -30], [-20, -10, 0, 10, 20], [30, 40, 50, 60, 70]]] := by
  refine ⟨?_, ?_, ?_⟩
  · intro ident opts
    rw [mkBranch]
    rw [arityOf]
    rw [List.map_map]
    rfl
  · simp [branchReluT10, mkBranch, mkLeaf, arityOf, maxIns, sumOuts, reluSpec, times10Spec]
  · simp [branchReluT10, mkBranch, mkLeaf, Layer.forward, runBranch, arityOf, reluSpec,
      times10Spec, maxIns, sumOuts, reluT, scaleT, List.take, List.drop, xNotebook]

/-- C10 (confirmed).  `Residual` of exactly one layer uses the layer itself as
the branch body (`layers[0] if len(layers) == 1` in the quoted source), and
this is behaviour-preserving: with correspondingly shaped weights, the
composite computes the same function as the variant that wraps the single
layer in `Serial`. -/
theorem residual_single_layer_direct (base : Nat) (sc : Option Layer) (L : Layer)
    (wsc w : Weights) (xs : List Tensor) :
    mkResidual base sc [L] =
      mkSerial base [mkBranch (base + 1) [sc, some L], mkLeaf (base + 3) addSpec] ∧
    Layer.forward (mkResidual base sc [L]) (.comp [.comp [wsc, w], .empty]) xs =
      Layer.forward (mkResidualWrapped base sc [L])
        (.comp [.comp [wsc, .comp [w]], .empty]) xs := by
  constructor
  · rfl
  · exact (serial2_congr base (mkLeaf (base + 3) addSpec)
      (mkBranch (base + 1) [sc, some L])
      (mkBranch (base + 1) [sc, some (mkSerial (base + 2) [L])])
      .empty (.comp [wsc, w]) (.comp [wsc, .comp [w]])
      (branch_wrap (base + 2) (base + 1) sc L wsc w).1
      (branch_wrap (base + 2) (base + 1) sc L wsc w).2 xs).symm

/- Store lemmas -/

lemma lookup_append (st st2 : Store) (j : Nat) :
    lookupStore (st ++ st2) j =
      match lookupStore st j with
      | some e => some e
      | none => lookupStore st2 j := by
  induction st with
  | nil => rfl
  | cons a r ih =>
      obtain ⟨i, e⟩ := a
      rw [List.cons_append, lookupStore, lookupStore]
      by_cases hij : i = j
      · rw [if_pos hij, if_pos hij]
      · rw [if_neg hij, if_neg hij, ih]

lemma lookup_put_same (st : Store) (i : Nat) (e : StoreEntry)
    (h : lookupStore st i = none) : lookupStore (storePut st i e) i = some e := by
  rw [storePut, lookup_append, h]
  simp [lookupStore]

lemma lookup_put_mono (st : Store) (i : Nat) (e : StoreEntry) (j : Nat) (e' : StoreEntry)
    (h : lookupStore st j = some e') : lookupStore (storePut st i e) j = some e' := by
  rw [storePut, lookup_append, h]

lemma lookup_put_other (st : Store) (i : Nat) (e : StoreEntry) (j : Nat)
    (h : lookupStore st j = none) (hne : i ≠ j) :
    lookupStore (storePut st i e) j = none := by
  rw [storePut, lookup_append, h]
  simp [lookupStore, hne]

lemma lookup_put_cases (st : Store) (i : Nat) (e : StoreEntry) (j : Nat) :
    lookupStore (storePut st i e) j = lookupStore st j ∨
      (lookupStore st j = none ∧ i = j ∧ lookupStore (storePut st i e) j = some e) := by
  cases h : lookupStore st j with
  | some e' => left; rw [lookup_put_mono st i e j e' h]
  | none =>
      by_cases hij : i = j
      · right; subst hij; exact ⟨rfl, rfl, lookup_put_same st i e h⟩
      · left; rw [lookup_put_other st i e j h hij]

/- idNodes membership and size -/

lemma mem_idNodesList {ls : List Layer} {p : Nat × Layer} :
    p ∈ idNodesList ls ↔ ∃ m ∈ ls, p ∈ idNodes m := by
  induction ls with
  | nil => rw [idNodesList]; simp
  | cons l ls ih => rw [idNodesList]; simp [List.mem_append, ih]

lemma idNodes_self (l : Layer) (i : Nat) (h : idOf? l = some i) : (i, l) ∈ idNodes l := by
  cases l with
  | idpass => simp [idOf?] at h
  | leaf j sp => simp [idOf?] at h; subst h; rw [idNodes]; simp
  | serial j a b ls => simp [idOf?] at h; subst h; rw [idNodes]; simp
  | branch j a b ls => simp [idOf?] at h; subst h; rw [idNodes]; simp

lemma idNodes_sizeOf_aux : ∀ (n : Nat) (l : Layer), sizeOf l ≤ n →
    ∀ p ∈ idNodes l, sizeOf p.2 ≤ sizeOf l := by
  intro n
  induction n with
  | zero => intro l hl; exfalso; cases l <;> simp at hl
  | succ n ih =>
      intro l hl p hp
      cases l with
      | idpass => rw [idNodes] at hp; simp at hp
      | leaf i sp => rw [idNodes] at hp; simp at hp; subst hp; simp
      | serial i a b ls =>
          rw [idNodes] at hp
          rcases List.mem_cons.mp hp with rfl | hmem
          · simp
          · obtain ⟨m, hm, hpm⟩ := mem_idNodesList.mp hmem
            have h1 : sizeOf m < sizeOf ls := List.sizeOf_lt_of_mem hm
            have h2 : sizeOf ls < sizeOf (Layer.serial i a b ls) := by
              have := Layer.serial.sizeOf_spec i a b ls; omega
            have h3 := ih m (by omega) p hpm
            omega
      | branch i a b ls =>
          rw [idNodes] at hp
          rcases List.mem_cons.mp hp with rfl | hmem
          · simp
          · obtain ⟨m, hm, hpm⟩ := mem_idNodesList.mp hmem
            have h1 : sizeOf m < sizeOf ls := List.sizeOf_lt_of_mem hm
            have h2 : sizeOf ls < sizeOf (Layer.branch i a b ls) := by
              have := Layer.branch.sizeOf_spec i a b ls; omega
            have h3 := ih m (by omega) p hpm
            omega

lemma idNodes_sizeOf (l : Layer) (p : Nat × Layer) (hp : p ∈ idNodes l) :
    sizeOf p.2 ≤ sizeOf l :=
  idNodes_sizeOf_aux (sizeOf l) l le_rfl p hp

/- Sharing-consistency descent and identity lemmas -/

lemma layerIds_leaf (i : Nat) (sp : LeafSpec) : layerIds (.leaf i sp) = [i] := by
  rw [layerIds, idNodes]; rfl

lemma layerIds_serial (i a b : Nat) (ls : List Layer) :
    layerIds (.serial i a b ls) = i :: layerIdsList ls := by
  rw [layerIds, idNodes, layerIdsList]; rfl

lemma layerIds_branch (i a b : Nat) (ls : List Layer) :
    layerIds (.branch i a b ls) = i :: layerIdsList ls := by
  rw [layerIds, idNodes, layerIdsList]; rfl

lemma layerIdsList_cons (l : Layer) (ls : List Layer) :
    layerIdsList (l :: ls) = layerIds l ++ layerIdsList ls := by
  rw [layerIdsList, idNodesList, List.map_append]; rfl

lemma mem_layerIdsList {ls : List Layer} {j : Nat} :
    j ∈ layerIdsList ls ↔ ∃ p ∈ idNodesList ls, p.1 = j := by
  rw [layerIdsList]
  simp [List.mem_map]

lemma mem_layerIds {l : Layer} {j : Nat} :
    j ∈ layerIds l ↔ ∃ p ∈ idNodes l, p.1 = j := by
  rw [layerIds]
  simp [List.mem_map]

lemma sc_serial {i a b : Nat} {ls : List Layer}
    (h : SharedConsistent (.serial i a b ls)) : SharedConsistentList ls := by
  intro p hp q hq hpq
  exact h p (by rw [idNodes]; exact List.mem_cons_of_mem _ hp)
    q (by rw [idNodes]; exact List.mem_cons_of_mem _ hq) hpq

lemma sc_branch {i a b : Nat} {ls : List Layer}
    (h : SharedConsistent (.branch i a b ls)) : SharedConsistentList ls := by
  intro p hp q hq hpq
  exact h p (by rw [idNodes]; exact List.mem_cons_of_mem _ hp)
    q (by rw [idNodes]; exact List.mem_cons_of_mem _ hq) hpq

lemma scl_head {l : Layer} {ls : List Layer}
    (h : SharedConsistentList (l :: ls)) : SharedConsistent l := by
  intro p hp q hq hpq
  exact h p (by rw [idNodesList]; exact List.mem_append_left _ hp)
    q (by rw [idNodesList]; exact List.mem_append_left _ hq) hpq

lemma scl_tail {l : Layer} {ls : List Layer}
    (h : SharedConsistentList (l :: ls)) : SharedConsistentList ls := by
  intro p hp q hq hpq
  exact h p (by rw [idNodesList]; exact List.mem_append_right _ hp)
    q (by rw [idNodesList]; exact List.mem_append_right _ hq) hpq

lemma sc_own_id_serial {i a b : Nat} {ls : List Layer}
    (h : SharedConsistent (.serial i a b ls)) : i ∉ layerIdsList ls := by
  intro hmem
  obtain ⟨p, hp, hpi⟩ := mem_layerIdsList.mp hmem
  have hp' : p ∈ idNodes (.serial i a b ls) := by
    rw [idNodes]; exact List.mem_cons_of_mem _ hp
  have hself : ((i, Layer.serial i a b ls) : Nat × Layer) ∈ idNodes (.serial i a b ls) := by
    rw [idNodes]; exact List.mem_cons_self _ _
  have heq : p.2 = Layer.serial i a b ls := h p hp' (i, .serial i a b ls) hself (by simpa using hpi)
  obtain ⟨m, hm, hpm⟩ := mem_idNodesList.mp hp
  have h1 := idNodes_sizeOf m p hpm
  have h2 : sizeOf m < sizeOf ls := List.sizeOf_lt_of_mem hm
  have h3 : sizeOf ls < sizeOf (Layer.serial i a b ls) := by
    have := Layer.serial.sizeOf_spec i a b ls; omega
  rw [heq] at h1
  omega

lemma sc_own_id_branch {i a b : Nat} {ls : List Layer}
    (h : SharedConsistent (.branch i a b ls)) : i ∉ layerIdsList ls := by
  intro hmem
  obtain ⟨p, hp, hpi⟩ := mem_layerIdsList.mp hmem
  have hp' : p ∈ idNodes (.branch i a b ls) := by
    rw [idNodes]; exact List.mem_cons_of_mem _ hp
  have hself : ((i, Layer.branch i a b ls) : Nat × Layer) ∈ idNodes (.branch i a b ls) := by
    rw [idNodes]; exact List.mem_cons_self _ _
  have heq : p.2 = Layer.branch i a b ls := h p hp' (i, .branch i a b ls) hself (by simpa using hpi)
  obtain ⟨m, hm, hpm⟩ := mem_idNodesList.mp hp
  have h1 := idNodes_sizeOf m p hpm
  have h2 : sizeOf m < sizeOf ls := List.sizeOf_lt_of_mem hm
  have h3 : sizeOf ls < sizeOf (Layer.branch i a b ls) := by
    have := Layer.branch.sizeOf_spec i a b ls; omega
  rw [heq] at h1
  omega

lemma initSerial_master (ls : List Layer) (hP : ∀ l ∈ ls, InitP l) :
    InitQ initSerial ls := by
  induction ls with
  | nil =>
      intro sig k st ws ss st' log h
      rw [initSerial] at h
      simp only [Except.ok.injEq] at h
      obtain ⟨rfl, rfl, rfl, rfl⟩ := h
      refine ⟨fun j e he => he, fun j h1 h2 => absurd h1 h2, ?_, ?_, ?_, ?_⟩ <;> simp
  | cons l ls ih =>
      intro stack k st ws ss st' log h
      have hPl := hP l (List.mem_cons_self l ls)
      have hQ := ih (fun l' hl' => hP l' (List.mem_cons_of_mem l hl'))
      rw [initSerial] at h
      split at h
      case isFalse => cases h
      case isTrue hle =>
        cases hinit : initL l (stack.take (arityOf l).1) k st with
        | error e => rw [hinit] at h; cases h
        | ok res =>
            obtain ⟨⟨w, s⟩, st1, log1⟩ := res
            rw [hinit] at h
            dsimp only at h
            cases hsig : sigOut l (stack.take (arityOf l).1) with
            | none => rw [hsig] at h; cases h
            | some outs =>
                rw [hsig] at h
                dsimp only at h
                cases hrest : initSerial ls (outs ++ stack.drop (arityOf l).1) k st1 with
                | error e => rw [hrest] at h; cases h
                | ok res2 =>
                    obtain ⟨ws2, ss2, st2, log2⟩ := res2
                    rw [hrest] at h
                    simp only [Except.ok.injEq] at h
                    obtain ⟨rfl, rfl, rfl, rfl⟩ := h
                    obtain ⟨m1, m2, m3, m4, m5, m6, m7⟩ := hPl _ _ _ _ _ _ _ hinit
                    obtain ⟨q1, q2, q3, q4, q5, q6⟩ := hQ _ _ _ _ _ _ _ hrest
                    refine ⟨?_, ?_, ?_, ?_, ?_, ?_⟩
                    · intro j e he
                      exact q1 j e (m1 j e he)
                    · intro j h1 h2
                      rw [layerIdsList_cons, List.mem_append]
                      cases hmid : lookupStore st1 j with
                      | some e => exact Or.inl (m2 j h1 (by rw [hmid]; simp))
                      | none => exact Or.inr (q2 j hmid h2)
                    · intro j hj
                      rcases List.mem_append.mp hj with hj1 | hj2
                      · exact m3 j hj1
                      · cases hst : lookupStore st j with
                        | none => rfl
                        | some e =>
                            have := m1 j e hst
                            rw [q3 j hj2] at this
                            cases this
                    · intro j hj
                      rcases List.mem_append.mp hj with hj1 | hj2
                      · cases hmid : lookupStore st1 j with
                        | none => exact absurd hmid (m4 j hj1)
                        | some e => rw [q1 j e hmid]; simp
                      · exact q4 j hj2
                    · intro j hj
                      rw [layerIdsList_cons, List.mem_append]
                      rcases List.mem_append.mp hj with hj1 | hj2
                      · exact Or.inl (m5 j hj1)
                      · exact Or.inr (q5 j hj2)
                    · intro hscl
                      have hnd1 := m6 (scl_head hscl)
                      have hnd2 := q6 (scl_tail hscl)
                      rw [List.nodup_append]
                      refine ⟨hnd1, hnd2, ?_⟩
                      intro j hj1 hj2
                      cases hmid : lookupStore st1 j with
                      | none => exact absurd hmid (m4 j hj1)
                      | some e =>
                          have := q3 j hj2
                          rw [hmid] at this
                          cases this

lemma initBranch_master (ls : List Layer) (hP : ∀ l ∈ ls, InitP l) :
    InitQ initBranch ls := by
  induction ls with
  | nil =>
      intro sig k st ws ss st' log h
      rw [initBranch] at h
      simp only [Except.ok.injEq] at h
      obtain ⟨rfl, rfl, rfl, rfl⟩ := h
      refine ⟨fun j e he => he, fun j h1 h2 => absurd h1 h2, ?_, ?_, ?_, ?_⟩ <;> simp
  | cons l ls ih =>
      intro stack k st ws ss st' log h
      have hPl := hP l (List.mem_cons_self l ls)
      have hQ := ih (fun l' hl' => hP l' (List.mem_cons_of_mem l hl'))
      rw [initBranch] at h
      split at h
      case isFalse => cases h
      case isTrue hle =>
        cases hinit : initL l (stack.take (arityOf l).1) k st with
        | error e => rw [hinit] at h; cases h
        | ok res =>
            obtain ⟨⟨w, s⟩, st1, log1⟩ := res
            rw [hinit] at h
            dsimp only at h
            cases hrest : initBranch ls stack k st1 with
            | error e => rw [hrest] at h; cases h
            | ok res2 =>
                obtain ⟨ws2, ss2, st2, log2⟩ := res2
                rw [hrest] at h
                simp only [Except.ok.injEq] at h
                obtain ⟨rfl, rfl, rfl, rfl⟩ := h
                obtain ⟨m1, m2, m3, m4, m5, m6, m7⟩ := hPl _ _ _ _ _ _ _ hinit
                obtain ⟨q1, q2, q3, q4, q5, q6⟩ := hQ _ _ _ _ _ _ _ hrest
                refine ⟨?_, ?_, ?_, ?_, ?_, ?_⟩
                · intro j e he
                  exact q1 j e (m1 j e he)
                · intro j h1 h2
                  rw [layerIdsList_cons, List.mem_append]
                  cases hmid : lookupStore st1 j with
                  | some e => exact Or.inl (m2 j h1 (by rw [hmid]; simp))
                  | none => exact Or.inr (q2 j hmid h2)
                · intro j hj
                  rcases List.mem_append.mp hj with hj1 | hj2
                  · exact m3 j hj1
                  · cases hst : lookupStore st j with
                    | none => rfl
                    | some e =>
                        have := m1 j e hst
                        rw [q3 j hj2] at this
                        cases this
                · intro j hj
                  rcases List.mem_append.mp hj with hj1 | hj2
                  · cases hmid : lookupStore st1 j with
                    | none => exact absurd hmid (m4 j hj1)
                    | some e => rw [q1 j e hmid]; simp
                  · exact q4 j hj2
                · intro j hj
                  rw [layerIdsList_cons, List.mem_append]
                  rcases List.mem_append.mp hj with hj1 | hj2
                  · exact Or.inl (m5 j hj1)
                  · exact Or.inr (q5 j hj2)
                · intro hscl
                  have hnd1 := m6 (scl_head hscl)
                  have hnd2 := q6 (scl_tail hscl)
                  rw [List.nodup_append]
                  refine ⟨hnd1, hnd2, ?_⟩
                  intro j hj1 hj2
                  cases hmid : lookupStore st1 j with
                  | none => exact absurd hmid (m4 j hj1)
                  | some e =>
                      have := q3 j hj2
                      rw [hmid] at this
                      cases this

lemma initP_all_aux : ∀ (n : Nat) (l : Layer), sizeOf l ≤ n → InitP l := by
  intro n
  induction n with
  | zero => intro l hl; exfalso; cases l <;> simp at hl
  | succ n ih =>
      intro l hl sig k st w s st' log h
      cases l with
      | idpass =>
          rw [initL] at h
          split at h
          case isFalse => cases h
          case isTrue =>
            injection h with h2
            injection h2 with ha hb
            injection hb with hst hlog
            injection ha with hw hs
            subst hst; subst hlog; subst hw; subst hs
            refine ⟨fun j e he => he, fun j ha hb => absurd ha hb, ?_, ?_, ?_, ?_, ?_⟩
            · simp
            · simp
            · simp
            · intro _; simp
            · intro _ i hi; simp [idOf?] at hi
      | leaf i sp =>
          rw [initL] at h
          cases hlk : lookupStore st i with
          | some e =>
              obtain ⟨sig0, w0, s0⟩ := e
              rw [hlk] at h
              dsimp only at h
              split at h
              case isTrue heq =>
                injection h with h2
                injection h2 with ha hb
                injection hb with hst hlog
                injection ha with hw hs
                subst hst; subst hlog; subst hw; subst hs
                refine ⟨fun j e he => he, fun j ha hb => absurd ha hb, ?_, ?_, ?_, ?_, ?_⟩
                · simp
                · simp
                · simp
                · intro _; simp
                · intro _ j hj
                  simp only [idOf?, Option.some.injEq] at hj
                  subst hj
                  rw [hlk, heq]
              case isFalse => cases h
          | none =>
              rw [hlk] at h
              dsimp only at h
              split at h
              case isFalse => cases h
              case isTrue hlen =>
                injection h with h2
                injection h2 with ha hb
                injection hb with hst hlog
                subst hst; subst hlog
                have hw : w = (sp.winit k sig).1 := by rw [ha]
                have hs : s = (sp.winit k sig).2 := by rw [ha]
                subst hw; subst hs
                refine ⟨?_, ?_, ?_, ?_, ?_, ?_, ?_⟩
                · intro j e he; exact lookup_put_mono st i _ j e he
                · intro j h1 h2
                  rw [layerIds_leaf]
                  rcases lookup_put_cases st i (sig, (sp.winit k sig).1, (sp.winit k sig).2) j
                    with hc | ⟨_, rfl, _⟩
                  · rw [hc] at h2; exact absurd h1 h2
                  · simp
                · intro j hj
                  simp only [List.mem_singleton] at hj
                  subst hj; exact hlk
                · intro j hj
                  simp only [List.mem_singleton] at hj
                  subst hj
                  rw [lookup_put_same st j _ hlk]
                  simp
                · intro j hj
                  simp only [List.mem_singleton] at hj
                  subst hj
                  rw [layerIds_leaf]; simp
                · intro _; simp
                · intro _ j hj
                  simp only [idOf?, Option.some.injEq] at hj
                  subst hj
                  exact lookup_put_same st i _ hlk
      | serial i a b ls =>
          have hmem : ∀ l' ∈ ls, sizeOf l' ≤ n := by
            intro l' hl'
            have h1 := List.sizeOf_lt_of_mem hl'
            have h2 := Layer.serial.sizeOf_spec i a b ls
            omega
          have hQ := initSerial_master ls (fun l' hl' => ih l' (hmem l' hl'))
          rw [initL] at h
          cases hlk : lookupStore st i with
          | some e =>
              obtain ⟨sig0, w0, s0⟩ := e
              rw [hlk] at h
              dsimp only at h
              split at h
              case isTrue heq =>
                injection h with h2
                injection h2 with ha hb
                injection hb with hst hlog
                injection ha with hw hs
                subst hst; subst hlog; subst hw; subst hs
                refine ⟨fun j e he => he, fun j ha hb => absurd ha hb, ?_, ?_, ?_, ?_, ?_⟩
                · simp
                · simp
                · simp
                · intro _; simp
                · intro _ j hj
                  simp only [idOf?, Option.some.injEq] at hj
                  subst hj
                  rw [hlk, heq]
              case isFalse => cases h
          | none =>
              rw [hlk] at h
              dsimp only at h
              split at h
              case isFalse => cases h
              case isTrue hlen =>
                cases hrun : initSerial ls sig k st with
                | error e => rw [hrun] at h; cases h
                | ok res =>
                    obtain ⟨ws2, ss2, st1, log2⟩ := res
                    rw [hrun] at h
                    injection h with h2
                    injection h2 with ha hb
                    injection hb with hst hlog
                    injection ha with hw hs
                    subst hst; subst hlog; subst hw; subst hs
                    obtain ⟨q1, q2, q3, q4, q5, q6⟩ := hQ _ _ _ _ _ _ _ hrun
                    refine ⟨?_, ?_, ?_, ?_, ?_, ?_, ?_⟩
                    · intro j e he
                      exact lookup_put_mono st1 i _ j e (q1 j e he)
                    · intro j h1 h2
                      rw [layerIds_serial, List.mem_cons]
                      cases hmid : lookupStore st1 j with
                      | some e => exact Or.inr (q2 j h1 (by rw [hmid]; simp))
                      | none =>
                          rcases lookup_put_cases st1 i (sig, .comp ws2, .comp ss2) j
                            with hc | ⟨_, rfl, _⟩
                          · rw [hc, hmid] at h2; exact absurd rfl h2
                          · exact Or.inl rfl
                    · intro j hj
                      rcases List.mem_append.mp hj with hj1 | hj2
                      · exact q3 j hj1
                      · simp only [List.mem_singleton] at hj2
                        subst hj2; exact hlk
                    · intro j hj
                      rcases List.mem_append.mp hj with hj1 | hj2
                      · cases hmid : lookupStore st1 j with
                        | none => exact absurd hmid (q4 j hj1)
                        | some e => rw [lookup_put_mono st1 i _ j e hmid]; simp
                      · simp only [List.mem_singleton] at hj2
                        subst hj2
                        cases hmid : lookupStore st1 j with
                        | none => rw [lookup_put_same st1 j _ hmid]; simp
                        | some e => rw [lookup_put_mono st1 j _ j e hmid]; simp
                    · intro j hj
                      rw [layerIds_serial, List.mem_cons]
                      rcases List.mem_append.mp hj with hj1 | hj2
                      · exact Or.inr (q5 j hj1)
                      · simp only [List.mem_singleton] at hj2
                        subst hj2; exact Or.inl rfl
                    · intro hsc
                      rw [List.nodup_append]
                      refine ⟨q6 (sc_serial hsc), List.nodup_singleton i, ?_⟩
                      intro j hj1 hj2
                      simp only [List.mem_singleton] at hj2
                      rw [hj2] at hj1
                      exact absurd (q5 i hj1) (sc_own_id_serial hsc)
                    · intro hsc j hj
                      simp only [idOf?, Option.some.injEq] at hj
                      subst hj
                      cases hmid : lookupStore st1 i with
                      | none => exact lookup_put_same st1 i _ hmid
                      | some e =>
                          exfalso
                          exact absurd (q2 i hlk (by rw [hmid]; simp)) (sc_own_id_serial hsc)
      | branch i a b ls =>
          have hmem : ∀ l' ∈ ls, sizeOf l' ≤ n := by
            intro l' hl'
            have h1 := List.sizeOf_lt_of_mem hl'
            have h2 := Layer.branch.sizeOf_spec i a b ls
            omega
          have hQ := initBranch_master ls (fun l' hl' => ih l' (hmem l' hl'))
          rw [initL] at h
          cases hlk : lookupStore st i with
          | some e =>
              obtain ⟨sig0, w0, s0⟩ := e
              rw [hlk] at h
              dsimp only at h
              split at h
              case isTrue heq =>
                injection h with h2
                injection h2 with ha hb
                injection hb with hst hlog
                injection ha with hw hs
                subst hst; subst hlog; subst hw; subst hs
                refine ⟨fun j e he => he, fun j ha hb => absurd ha hb, ?_, ?_, ?_, ?_, ?_⟩
                · simp
                · simp
                · simp
                · intro _; simp
                · intro _ j hj
                  simp only [idOf?, Option.some.injEq] at hj
                  subst hj
                  rw [hlk, heq]
              case isFalse => cases h
          | none =>
              rw [hlk] at h
              dsimp only at h
              split at h
              case isFalse => cases h
              case isTrue hlen =>
                cases hrun : initBranch ls sig k st with
                | error e => rw [hrun] at h; cases h
                | ok res =>
                    obtain ⟨ws2, ss2, st1, log2⟩ := res
                    rw [hrun] at h
                    injection h with h2
                    injection h2 with ha hb
                    injection hb with hst hlog
                    injection ha with hw hs
                    subst hst; subst hlog; subst hw; subst hs
                    obtain ⟨q1, q2, q3, q4, q5, q6⟩ := hQ _ _ _ _ _ _ _ hrun
                    refine ⟨?_, ?_, ?_, ?_, ?_, ?_, ?_⟩
                    · intro j e he
                      exact lookup_put_mono st1 i _ j e (q1 j e he)
                    · intro j h1 h2
                      rw [layerIds_branch, List.mem_cons]
                      cases hmid : lookupStore st1 j with
                      | some e => exact Or.inr (q2 j h1 (by rw [hmid]; simp))
                      | none =>
                          rcases lookup_put_cases st1 i (sig, .comp ws2, .comp ss2) j
                            with hc | ⟨_, rfl, _⟩
                          · rw [hc, hmid] at h2; exact absurd rfl h2
                          · exact Or.inl rfl
                    · intro j hj
                      rcases List.mem_append.mp hj with hj1 | hj2
                      · exact q3 j hj1
                      · simp only [List.mem_singleton] at hj2
                        subst hj2; exact hlk
                    · intro j hj
                      rcases List.mem_append.mp hj with hj1 | hj2
                      · cases hmid : lookupStore st1 j with
                        | none => exact absurd hmid (q4 j hj1)
                        | some e => rw [lookup_put_mono st1 i _ j e hmid]; simp
                      · simp only [List.mem_singleton] at hj2
                        subst hj2
                        cases hmid : lookupStore st1 j with
                        | none => rw [lookup_put_same st1 j _ hmid]; simp
                        | some e => rw [lookup_put_mono st1 j _ j e hmid]; simp
                    · intro j hj
                      rw [layerIds_branch, List.mem_cons]
                      rcases List.mem_append.mp hj with hj1 | hj2
                      · exact Or.inr (q5 j hj1)
                      · simp only [List.mem_singleton] at hj2
                        subst hj2; exact Or.inl rfl
                    · intro hsc
                      rw [List.nodup_append]
                      refine ⟨q6 (sc_branch hsc), List.nodup_singleton i, ?_⟩
                      intro j hj1 hj2
                      simp only [List.mem_singleton] at hj2
                      rw [hj2] at hj1
                      exact absurd (q5 i hj1) (sc_own_id_branch hsc)
                    · intro hsc j hj
                      simp only [idOf?, Option.some.injEq] at hj
                      subst hj
                      cases hmid : lookupStore st1 i with
                      | none => exact lookup_put_same st1 i _ hmid
                      | some e =>
                          exfalso
                          exact absurd (q2 i hlk (by rw [hmid]; simp)) (sc_own_id_branch hsc)

/-- Every layer satisfies the init store invariants. -/
lemma initP_all (l : Layer) : InitP l := initP_all_aux (sizeOf l) l le_rfl

/-- C5 (confirmed).  If a shared layer instance was already initialized under
one signature (its identity is in the store with that signature) and a second
use requires a different signature, the initialization walk fails with a
signature-conflict error instead of silently re-initializing; errors
propagate, aborting the whole call. -/
theorem init_signature_conflict (L : Layer) (i : Nat) (sig' : List ShapeDtype)
    (k : Key) (st : Store) (e : StoreEntry)
    (hid : idOf? L = some i) (hst : lookupStore st i = some e) (hne : e.1 ≠ sig') :
    initL L sig' k st = .error .sigConflict := by
  obtain ⟨sig0, w0, s0⟩ := e
  simp only at hne
  cases L with
  | idpass => simp [idOf?] at hid
  | leaf j sp =>
      simp only [idOf?, Option.some.injEq] at hid
      subst hid
      rw [initL, hst]
      dsimp only
      rw [if_neg hne]
  | serial j a b ls =>
      simp only [idOf?, Option.some.injEq] at hid
      subst hid
      rw [initL, hst]
      dsimp only
      rw [if_neg hne]
  | branch j a b ls =>
      simp only [idOf?, Option.some.injEq] at hid
      subst hid
      rw [initL, hst]
      dsimp only
      rw [if_neg hne]

lemma initSerial_pos (ls : List Layer) :
    ∀ (stack : List ShapeDtype) (k : Key) (st : Store) (ws ss : List Weights)
      (st' : Store) (log : List Nat), SharedConsistentList ls →
      initSerial ls stack k st = .ok (ws, ss, st', log) →
      ∀ (n : Nat) (A : Layer), ls[n]? = some A →
        ∃ w s, ws[n]? = some w ∧ ss[n]? = some s ∧
          (idOf? A = none → w = .empty ∧ s = .empty) ∧
          (∀ i, idOf? A = some i → ∃ sg, lookupStore st' i = some (sg, w, s)) := by
  induction ls with
  | nil => intro stack k st ws ss st' log hscl h n A hA; simp at hA
  | cons l ls ih =>
      intro stack k st ws ss st' log hscl h n A hA
      rw [initSerial] at h
      split at h
      case isFalse => cases h
      case isTrue hle =>
        cases hinit : initL l (stack.take (arityOf l).1) k st with
        | error e => rw [hinit] at h; cases h
        | ok res =>
            obtain ⟨⟨w, s⟩, st1, log1⟩ := res
            rw [hinit] at h
            dsimp only at h
            cases hsig : sigOut l (stack.take (arityOf l).1) with
            | none => rw [hsig] at h; cases h
            | some outs =>
                rw [hsig] at h
                dsimp only at h
                cases hrest : initSerial ls (outs ++ stack.drop (arityOf l).1) k st1 with
                | error e => rw [hrest] at h; cases h
                | ok res2 =>
                    obtain ⟨ws2, ss2, st2, log2⟩ := res2
                    rw [hrest] at h
                    injection h with h2
                    injection h2 with hws h3
                    injection h3 with hss h4
                    injection h4 with hst hlog
                    subst hws; subst hss; subst hst; subst hlog
                    cases n with
                    | zero =>
                        simp only [List.getElem?_cons_zero, Option.some.injEq] at hA
                        subst hA
                        refine ⟨w, s, by simp, by simp, ?_, ?_⟩
                        · intro hid
                          cases l with
                          | idpass =>
                              rw [initL] at hinit
                              split at hinit
                              · injection hinit with hh
                                injection hh with ha hb
                                injection ha with hw hs
                                exact ⟨hw.symm, hs.symm⟩
                              · cases hinit
                          | leaf j sp => simp [idOf?] at hid
                          | serial j a b ls3 => simp [idOf?] at hid
                          | branch j a b ls3 => simp [idOf?] at hid
                        · intro i hid
                          obtain ⟨_, _, _, _, _, _, m7⟩ :=
                            initP_all l _ _ _ _ _ _ _ hinit
                          have hlook := m7 (scl_head hscl) i hid
                          obtain ⟨q1, _, _, _, _, _⟩ :=
                            initSerial_master ls (fun l' _ => initP_all l')
                              _ _ _ _ _ _ _ hrest
                          exact ⟨_, q1 i _ hlook⟩
                    | succ n' =>
                        simp only [List.getElem?_cons_succ] at hA
                        have := ih _ k st1 _ _ _ _ (scl_tail hscl) hrest n' A hA
                        simpa using this

/-- C3 (confirmed).  Per-identity idempotent initialization: (1) a repeated
`init` on an already-initialized object identity with the same signature is a
no-op that returns the stored weights and state, changes no store entry and
computes nothing fresh; (2) one walk computes each object identity's weights
at most once (the freshly-computed log has no duplicate identities); (3) when
the same layer object appears at two positions of a Serial tree, both
positions observe identical weights and state. -/
theorem init_idempotent_sharing :
    (∀ (L : Layer) (i : Nat) (sig : List ShapeDtype) (k : Key) (st : Store) (w s : Weights),
        idOf? L = some i → lookupStore st i = some (sig, w, s) →
        initL L sig k st = .ok ((w, s), st, [])) ∧
    (∀ (L : Layer) (sig : List ShapeDtype) (k : Key) (st : Store)
        (r : Weights × Weights) (st' : Store) (log : List Nat),
        SharedConsistent L → initL L sig k st = .ok (r, st', log) → log.Nodup) ∧
    (∀ (ls : List Layer) (stack : List ShapeDtype) (k : Key) (st : Store)
        (ws ss : List Weights) (st' : Store) (log : List Nat) (n1 n2 : Nat) (A : Layer),
        SharedConsistentList ls → initSerial ls stack k st = .ok (ws, ss, st', log) →
        ls[n1]? = some A → ls[n2]? = some A →
        ws[n1]? = ws[n2]? ∧ ss[n1]? = ss[n2]?) := by
  refine ⟨?_, ?_, ?_⟩
  · intro L i sig k st w s hid hst
    cases L with
    | idpass => simp [idOf?] at hid
    | leaf j sp =>
        simp only [idOf?, Option.some.injEq] at hid
        subst hid
        rw [initL, hst]
        dsimp only
        rw [if_pos rfl]
    | serial j a b ls =>
        simp only [idOf?, Option.some.injEq] at hid
        subst hid
        rw [initL, hst]
        dsimp only
        rw [if_pos rfl]
    | branch j a b ls =>
        simp only [idOf?, Option.some.injEq] at hid
        subst hid
        rw [initL, hst]
        dsimp only
        rw [if_pos rfl]
  · intro L sig k st r st' log hsc h
    obtain ⟨w, s⟩ := r
    obtain ⟨_, _, _, _, _, m6, _⟩ := initP_all L _ _ _ _ _ _ _ h
    exact m6 hsc
  · intro ls stack k st ws ss st' log n1 n2 A hscl h hA1 hA2
    obtain ⟨w1, s1, hw1, hs1, hemp1, hsome1⟩ :=
      initSerial_pos ls stack k st ws ss st' log hscl h n1 A hA1
    obtain ⟨w2, s2, hw2, hs2, hemp2, hsome2⟩ :=
      initSerial_pos ls stack k st ws ss st' log hscl h n2 A hA2
    cases hid : idOf? A with
    | none =>
        obtain ⟨rfl, rfl⟩ := hemp1 hid
        obtain ⟨rfl, rfl⟩ := hemp2 hid
        rw [hw1, hw2, hs1, hs2]
        exact ⟨rfl, rfl⟩
    | some i =>
        obtain ⟨sg1, hl1⟩ := hsome1 i hid
        obtain ⟨sg2, hl2⟩ := hsome2 i hid
        rw [hl1] at hl2
        injection hl2 with he
        injection he with ha hb
        injection hb with hbw hbs
        rw [hw1, hw2, hs1, hs2, hbw, hbs]
        exact ⟨rfl, rfl⟩

/-- Witness for `init_idempotent_sharing`: a relu leaf with identity 5 stored
in the store (re-entry no-op), freshly initialized (singleton log), and shared
at both positions of a two-element `Serial` (equal observed weights). -/
theorem init_idempotent_sharing_witness :
    initL (mkLeaf 5 reluSpec) [⟨[3, 5], 0⟩] (prngKey 0)
        [(5, ([⟨[3, 5], 0⟩], .empty, .empty))] =
      .ok ((.empty, .empty), [(5, ([⟨[3, 5], 0⟩], .empty, .empty))], []) ∧
    ([5] : List Nat).Nodup ∧
    (([Weights.empty, Weights.empty] : List Weights)[0]? =
        ([Weights.empty, Weights.empty] : List Weights)[1]? ∧
     ([Weights.empty, Weights.empty] : List Weights)[0]? =
        ([Weights.empty, Weights.empty] : List Weights)[1]?) := by
  refine ⟨?_, ?_, ?_⟩
  · exact init_idempotent_sharing.1 (mkLeaf 5 reluSpec) 5 [⟨[3, 5], 0⟩] (prngKey 0)
      [(5, ([⟨[3, 5], 0⟩], .empty, .empty))] .empty .empty
      (by simp [mkLeaf, idOf?]) (by simp [lookupStore])
  · exact init_idempotent_sharing.2.1 (mkLeaf 5 reluSpec) [⟨[3, 5], 0⟩] (prngKey 0) []
      (.empty, .empty) [(5, ([⟨[3, 5], 0⟩], .empty, .empty))] [5]
      (by intro p hp q hq hh
          simp only [mkLeaf, idNodes, List.mem_singleton] at hp hq
          rw [hp, hq])
      (by simp [mkLeaf, initL, lookupStore, reluSpec, pureInit, storePut])
  · exact init_idempotent_sharing.2.2 [mkLeaf 5 reluSpec, mkLeaf 5 reluSpec] [⟨[3, 5], 0⟩] (prngKey 0) []
      [.empty, .empty] [.empty, .empty] [(5, ([⟨[3, 5], 0⟩], .empty, .empty))] [5] 0 1
      (mkLeaf 5 reluSpec)
      (by intro p hp q hq hh
          simp only [mkLeaf, idNodesList, idNodes, List.append_nil, List.mem_append,
            List.mem_singleton] at hp hq
          rcases hp with hp | hp <;> rcases hq with hq | hq <;> rw [hp, hq])
      (by simp [initSerial, initL, mkLeaf, reluSpec, sigOut, lookupStore, storePut,
            arityOf, List.take, List.drop, pureInit])
      rfl rfl

/-- Witness for `init_signature_conflict`: a relu leaf whose identity 5 is
stored under the 3x5 signature, re-initialized under a 2x2 signature. -/
theorem init_signature_conflict_witness :
    initL (mkLeaf 5 reluSpec) [⟨[2, 2], 0⟩] (prngKey 0)
        [(5, ([⟨[3, 5], 0⟩], .empty, .empty))] = .error .sigConflict :=
  init_signature_conflict (mkLeaf 5 reluSpec) 5 [⟨[2, 2], 0⟩] (prngKey 0)
    [(5, ([⟨[3, 5], 0⟩], .empty, .empty))] ([⟨[3, 5], 0⟩], .empty, .empty)
    (by simp [mkLeaf, idOf?]) (by simp [lookupStore]) (by decide)

/- Descent lemmas for the shape predicates -/

lemma leafok_serial {i a b : Nat} {ls : List Layer}
    (h : LeafInitsOk (.serial i a b ls)) : LeafInitsOkList ls := by
  intro p hp
  exact h p (by rw [idNodes]; exact List.mem_cons_of_mem _ hp)

lemma leafok_branch {i a b : Nat} {ls : List Layer}
    (h : LeafInitsOk (.branch i a b ls)) : LeafInitsOkList ls := by
  intro p hp
  exact h p (by rw [idNodes]; exact List.mem_cons_of_mem _ hp)

lemma leafokl_head {l : Layer} {ls : List Layer}
    (h : LeafInitsOkList (l :: ls)) : LeafInitsOk l := by
  intro p hp
  exact h p (by rw [idNodesList]; exact List.mem_append_left _ hp)

lemma leafokl_tail {l : Layer} {ls : List Layer}
    (h : LeafInitsOkList (l :: ls)) : LeafInitsOkList ls := by
  intro p hp
  exact h p (by rw [idNodesList]; exact List.mem_append_right _ hp)

lemma storemir_serial {st : Store} {i a b : Nat} {ls : List Layer}
    (h : StoreMir st (.serial i a b ls)) : StoreMirList st ls := by
  intro p hp
  exact h p (by rw [idNodes]; exact List.mem_cons_of_mem _ hp)

lemma storemir_branch {st : Store} {i a b : Nat} {ls : List Layer}
    (h : StoreMir st (.branch i a b ls)) : StoreMirList st ls := by
  intro p hp
  exact h p (by rw [idNodes]; exact List.mem_cons_of_mem _ hp)

lemma storemirl_head {st : Store} {l : Layer} {ls : List Layer}
    (h : StoreMirList st (l :: ls)) : StoreMir st l := by
  intro p hp
  exact h p (by rw [idNodesList]; exact List.mem_append_left _ hp)

lemma storemirl_tail {st : Store} {l : Layer} {ls : List Layer}
    (h : StoreMirList st (l :: ls)) : StoreMirList st ls := by
  intro p hp
  exact h p (by rw [idNodesList]; exact List.mem_append_right _ hp)

lemma initSerial_mirror (ls : List Layer) (hP : ∀ l ∈ ls, MirP l) :
    ∀ (stack : List ShapeDtype) (k : Key) (st : Store) (ws ss : List Weights)
      (st' : Store) (log : List Nat),
      SharedConsistentList ls → LeafInitsOkList ls → StoreMirList st ls →
      initSerial ls stack k st = .ok (ws, ss, st', log) →
      mirrorsList ls ws = true ∧ mirrorsList ls ss = true ∧
      (∀ j e, lookupStore st j = none → lookupStore st' j = some e →
        ∃ p ∈ idNodesList ls, p.1 = j ∧
          mirrorsW p.2 e.2.1 = true ∧ mirrorsW p.2 e.2.2 = true) := by
  induction ls with
  | nil =>
      intro stack k st ws ss st' log hscl hok hsm h
      rw [initSerial] at h
      injection h with h2
      injection h2 with hws h3
      injection h3 with hss h4
      injection h4 with hst hlog
      subst hws; subst hss; subst hst
      refine ⟨by rw [mirrorsList], by rw [mirrorsList], ?_⟩
      intro j e h1 h2
      rw [h1] at h2; cases h2
  | cons l ls ih =>
      intro stack k st ws ss st' log hscl hok hsm h
      rw [initSerial] at h
      split at h
      case isFalse => cases h
      case isTrue hle =>
        cases hinit : initL l (stack.take (arityOf l).1) k st with
        | error e => rw [hinit] at h; cases h
        | ok res =>
            obtain ⟨⟨w, s⟩, st1, log1⟩ := res
            rw [hinit] at h
            dsimp only at h
            cases hsig : sigOut l (stack.take (arityOf l).1) with
            | none => rw [hsig] at h; cases h
            | some outs =>
                rw [hsig] at h
                dsimp only at h
                cases hrest : initSerial ls (outs ++ stack.drop (arityOf l).1) k st1 with
                | error e => rw [hrest] at h; cases h
                | ok res2 =>
                    obtain ⟨ws2, ss2, st2, log2⟩ := res2
                    rw [hrest] at h
                    injection h with h2
                    injection h2 with hws h3
                    injection h3 with hss h4
                    injection h4 with hst hlog
                    subst hws; subst hss; subst hst
                    obtain ⟨hw1, hs1, hnew1⟩ := hP l (List.mem_cons_self l ls)
                      _ _ _ _ _ _ _ (scl_head hscl) (leafokl_head hok)
                      (storemirl_head hsm) hinit
                    obtain ⟨hm1, _, _, _, _, _⟩ := initP_all l _ _ _ _ _ _ _ hinit
                    have hsm1 : StoreMirList st1 ls := by
                      intro q hq e hle2
                      cases hst0 : lookupStore st q.1 with
                      | some e0 =>
                          have := hm1 q.1 e0 hst0
                          rw [this] at hle2
                          injection hle2 with he
                          subst he
                          exact storemirl_tail hsm q hq e0 hst0
                      | none =>
                          obtain ⟨p, hp, hpj, hpw, hps⟩ := hnew1 q.1 e hst0 hle2
                          have hpq : p.2 = q.2 := by
                            apply hscl p _ q _ hpj
                            · rw [idNodesList]; exact List.mem_append_left _ hp
                            · rw [idNodesList]; exact List.mem_append_right _ hq
                          rw [hpq] at hpw hps
                          exact ⟨hpw, hps⟩
                    obtain ⟨hw2, hs2, hnew2⟩ := ih
                      (fun l' hl' => hP l' (List.mem_cons_of_mem l hl'))
                      _ k st1 _ _ _ _ (scl_tail hscl) (leafokl_tail hok) hsm1 hrest
                    obtain ⟨qm1, _, _, _, _, _⟩ :=
                      initSerial_master ls (fun l' _ => initP_all l') _ _ _ _ _ _ _ hrest
                    refine ⟨?_, ?_, ?_⟩
                    · rw [mirrorsList]
                      simp only [Bool.and_eq_true]
                      exact ⟨hw1, hw2⟩
                    · rw [mirrorsList]
                      simp only [Bool.and_eq_true]
                      exact ⟨hs1, hs2⟩
                    · intro j e h1 h2
                      cases hmid : lookupStore st1 j with
                      | some e1 =>
                          have := qm1 j e1 hmid
                          rw [this] at h2
                          injection h2 with he
                          subst he
                          obtain ⟨p, hp, hpj, hpw, hps⟩ := hnew1 j e1 h1 hmid
                          exact ⟨p, by rw [idNodesList]; exact List.mem_append_left _ hp,
                            hpj, hpw, hps⟩
                      | none =>
                          obtain ⟨p, hp, hpj, hpw, hps⟩ := hnew2 j e hmid h2
                          exact ⟨p, by rw [idNodesList]; exact List.mem_append_right _ hp,
                            hpj, hpw, hps⟩

lemma initBranch_mirror (ls : List Layer) (hP : ∀ l ∈ ls, MirP l) :
    ∀ (stack : List ShapeDtype) (k : Key) (st : Store) (ws ss : List Weights)
      (st' : Store) (log : List Nat),
      SharedConsistentList ls → LeafInitsOkList ls → StoreMirList st ls →
      initBranch ls stack k st = .ok (ws, ss, st', log) →
      mirrorsList ls ws = true ∧ mirrorsList ls ss = true ∧
      (∀ j e, lookupStore st j = none → lookupStore st' j = some e →
        ∃ p ∈ idNodesList ls, p.1 = j ∧
          mirrorsW p.2 e.2.1 = true ∧ mirrorsW p.2 e.2.2 = true) := by
  induction ls with
  | nil =>
      intro stack k st ws ss st' log hscl hok hsm h
      rw [initBranch] at h
      injection h with h2
      injection h2 with hws h3
      injection h3 with hss h4
      injection h4 with hst hlog
      subst hws; subst hss; subst hst
      refine ⟨by rw [mirrorsList], by rw [mirrorsList], ?_⟩
      intro j e h1 h2
      rw [h1] at h2; cases h2
  | cons l ls ih =>
      intro stack k st ws ss st' log hscl hok hsm h
      rw [initBranch] at h
      split at h
      case isFalse => cases h
      case isTrue hle =>
        cases hinit : initL l (stack.take (arityOf l).1) k st with
        | error e => rw [hinit] at h; cases h
        | ok res =>
            obtain ⟨⟨w, s⟩, st1, log1⟩ := res
            rw [hinit] at h
            dsimp only at h
            cases hrest : initBranch ls stack k st1 with
            | error e => rw [hrest] at h; cases h
            | ok res2 =>
                obtain ⟨ws2, ss2, st2, log2⟩ := res2
                rw [hrest] at h
                injection h with h2
                injection h2 with hws h3
                injection h3 with hss h4
                injection h4 with hst hlog
                subst hws; subst hss; subst hst
                obtain ⟨hw1, hs1, hnew1⟩ := hP l (List.mem_cons_self l ls)
                  _ _ _ _ _ _ _ (scl_head hscl) (leafokl_head hok)
                  (storemirl_head hsm) hinit
                obtain ⟨hm1, _, _, _, _, _⟩ := initP_all l _ _ _ _ _ _ _ hinit
                have hsm1 : StoreMirList st1 ls := by
                  intro q hq e hle2
                  cases hst0 : lookupStore st q.1 with
                  | some e0 =>
                      have := hm1 q.1 e0 hst0
                      rw [this] at hle2
                      injection hle2 with he
                      subst he
                      exact storemirl_tail hsm q hq e0 hst0
                  | none =>
                      obtain ⟨p, hp, hpj, hpw, hps⟩ := hnew1 q.1 e hst0 hle2
                      have hpq : p.2 = q.2 := by
                        apply hscl p _ q _ hpj
                        · rw [idNodesList]; exact List.mem_append_left _ hp
                        · rw [idNodesList]; exact List.mem_append_right _ hq
                      rw [hpq] at hpw hps
                      exact ⟨hpw, hps⟩
                obtain ⟨hw2, hs2, hnew2⟩ := ih
                  (fun l' hl' => hP l' (List.mem_cons_of_mem l hl'))
                  _ k st1 _ _ _ _ (scl_tail hscl) (leafokl_tail hok) hsm1 hrest
                obtain ⟨qm1, _, _, _, _, _⟩ :=
                  initBranch_master ls (fun l' _ => initP_all l') _ _ _ _ _ _ _ hrest
                refine ⟨?_, ?_, ?_⟩
                · rw [mirrorsList]
                  simp only [Bool.and_eq_true]
                  exact ⟨hw1, hw2⟩
                · rw [mirrorsList]
                  simp only [Bool.and_eq_true]
                  exact ⟨hs1, hs2⟩
                · intro j e h1 h2
                  cases hmid : lookupStore st1 j with
                  | some e1 =>
                      have := qm1 j e1 hmid
                      rw [this] at h2
                      injection h2 with he
                      subst he
                      obtain ⟨p, hp, hpj, hpw, hps⟩ := hnew1 j e1 h1 hmid
                      exact ⟨p, by rw [idNodesList]; exact List.mem_append_left _ hp,
                        hpj, hpw, hps⟩
                  | none =>
                      obtain ⟨p, hp, hpj, hpw, hps⟩ := hnew2 j e hmid h2
                      exact ⟨p, by rw [idNodesList]; exact List.mem_append_right _ hp,
                        hpj, hpw, hps⟩

lemma mirP_all_aux : ∀ (n : Nat) (l : Layer), sizeOf l ≤ n → MirP l := by
  intro n
  induction n with
  | zero => intro l hl; exfalso; cases l <;> simp at hl
  | succ n ih =>
      intro l hl sig k st w s st' log hsc hok hsm h
      cases l with
      | idpass =>
          rw [initL] at h
          split at h
          case isFalse => cases h
          case isTrue =>
            injection h with h2
            injection h2 with ha hb
            injection hb with hst hlog
            injection ha with hw hs
            subst hst; subst hw; subst hs
            refine ⟨by rw [mirrorsW], by rw [mirrorsW], ?_⟩
            intro j e h1 h2
            rw [h1] at h2; cases h2
      | leaf i sp =>
          rw [initL] at h
          cases hlk : lookupStore st i with
          | some e0 =>
              obtain ⟨sig0, w0, s0⟩ := e0
              rw [hlk] at h
              dsimp only at h
              split at h
              case isFalse => cases h
              case isTrue heq =>
                injection h with h2
                injection h2 with ha hb
                injection hb with hst hlog
                injection ha with hw hs
                subst hst; subst hw; subst hs
                have hself := idNodes_self (.leaf i sp) i (by rw [idOf?])
                obtain ⟨hmw, hms⟩ := hsm (i, .leaf i sp) hself (sig0, w0, s0) hlk
                refine ⟨hmw, hms, ?_⟩
                intro j e h1 h2
                rw [h1] at h2; cases h2
          | none =>
              rw [hlk] at h
              dsimp only at h
              split at h
              case isFalse => cases h
              case isTrue hlen =>
                injection h with h2
                injection h2 with ha hb
                injection hb with hst hlog
                subst hst
                have hw : w = (sp.winit k sig).1 := by rw [ha]
                have hs : s = (sp.winit k sig).2 := by rw [ha]
                subst hw; subst hs
                have hself := idNodes_self (.leaf i sp) i (by rw [idOf?])
                obtain ⟨hmw, hms⟩ := hok (i, .leaf i sp) hself i sp rfl k sig
                refine ⟨hmw, hms, ?_⟩
                intro j e h1 h2
                rcases lookup_put_cases st i (sig, (sp.winit k sig).1, (sp.winit k sig).2) j
                  with hc | ⟨_, rfl, hsome⟩
                · rw [hc, h1] at h2; cases h2
                · rw [hsome] at h2
                  injection h2 with he
                  subst he
                  exact ⟨(i, .leaf i sp), hself, rfl, hmw, hms⟩
      | serial i a b ls =>
          have hmem : ∀ l' ∈ ls, sizeOf l' ≤ n := by
            intro l' hl'
            have h1 := List.sizeOf_lt_of_mem hl'
            have h2 := Layer.serial.sizeOf_spec i a b ls
            omega
          rw [initL] at h
          cases hlk : lookupStore st i with
          | some e0 =>
              obtain ⟨sig0, w0, s0⟩ := e0
              rw [hlk] at h
              dsimp only at h
              split at h
              case isFalse => cases h
              case isTrue heq =>
                injection h with h2
                injection h2 with ha hb
                injection hb with hst hlog
                injection ha with hw hs
                subst hst; subst hw; subst hs
                have hself := idNodes_self (.serial i a b ls) i (by rw [idOf?])
                obtain ⟨hmw, hms⟩ := hsm (i, .serial i a b ls) hself (sig0, w0, s0) hlk
                refine ⟨hmw, hms, ?_⟩
                intro j e h1 h2
                rw [h1] at h2; cases h2
          | none =>
              rw [hlk] at h
              dsimp only at h
              split at h
              case isFalse => cases h
              case isTrue hlen =>
                cases hrun : initSerial ls sig k st with
                | error e => rw [hrun] at h; cases h
                | ok res =>
                    obtain ⟨ws2, ss2, st1, log2⟩ := res
                    rw [hrun] at h
                    injection h with h2
                    injection h2 with ha hb
                    injection hb with hst hlog
                    injection ha with hw hs
                    subst hst; subst hw; subst hs
                    obtain ⟨hw2, hs2, hnew2⟩ := initSerial_mirror ls
                      (fun l' hl' => ih l' (hmem l' hl'))
                      _ _ _ _ _ _ _ (sc_serial hsc) (leafok_serial hok)
                      (storemir_serial hsm) hrun
                    have hself := idNodes_self (.serial i a b ls) i (by rw [idOf?])
                    have hmwc : mirrorsW (.serial i a b ls) (.comp ws2) = true := by
                      rw [mirrorsW]; exact hw2
                    have hmsc : mirrorsW (.serial i a b ls) (.comp ss2) = true := by
                      rw [mirrorsW]; exact hs2
                    refine ⟨hmwc, hmsc, ?_⟩
                    intro j e h1 h2
                    rcases lookup_put_cases st1 i (sig, .comp ws2, .comp ss2) j
                      with hc | ⟨_, rfl, hsome⟩
                    · rw [hc] at h2
                      obtain ⟨p, hp, hpj, hpw, hps⟩ := hnew2 j e h1 h2
                      exact ⟨p, by rw [idNodes]; exact List.mem_cons_of_mem _ hp,
                        hpj, hpw, hps⟩
                    · rw [hsome] at h2
                      injection h2 with he
                      subst he
                      exact ⟨(i, .serial i a b ls), hself, rfl, hmwc, hmsc⟩
      | branch i a b ls =>
          have hmem : ∀ l' ∈ ls, sizeOf l' ≤ n := by
            intro l' hl'
            have h1 := List.sizeOf_lt_of_mem hl'
            have h2 := Layer.branch.sizeOf_spec i a b ls
            omega
          rw [initL] at h
          cases hlk : lookupStore st i with
          | some e0 =>
              obtain ⟨sig0, w0, s0⟩ := e0
              rw [hlk] at h
              dsimp only at h
              split at h
              case isFalse => cases h
              case isTrue heq =>
                injection h with h2
                injection h2 with ha hb
                injection hb with hst hlog
                injection ha with hw hs
                subst hst; subst hw; subst hs
                have hself := idNodes_self (.branch i a b ls) i (by rw [idOf?])
                obtain ⟨hmw, hms⟩ := hsm (i, .branch i a b ls) hself (sig0, w0, s0) hlk
                refine ⟨hmw, hms, ?_⟩
                intro j e h1 h2
                rw [h1] at h2; cases h2
          | none =>
              rw [hlk] at h
              dsimp only at h
              split at h
              case isFalse => cases h
              case isTrue hlen =>
                cases hrun : initBranch ls sig k st with
                | error e => rw [hrun] at h; cases h
                | ok res =>
                    obtain ⟨ws2, ss2, st1, log2⟩ := res
                    rw [hrun] at h
                    injection h with h2
                    injection h2 with ha hb
                    injection hb with hst hlog
                    injection ha with hw hs
                    subst hst; subst hw; subst hs
                    obtain ⟨hw2, hs2, hnew2⟩ := initBranch_mirror ls
                      (fun l' hl' => ih l' (hmem l' hl'))
                      _ _ _ _ _ _ _ (sc_branch hsc) (leafok_branch hok)
                      (storemir_branch hsm) hrun
                    have hself := idNodes_self (.branch i a b ls) i (by rw [idOf?])
                    have hmwc : mirrorsW (.branch i a b ls) (.comp ws2) = true := by
                      rw [mirrorsW]; exact hw2
                    have hmsc : mirrorsW (.branch i a b ls) (.comp ss2) = true := by
                      rw [mirrorsW]; exact hs2
                    refine ⟨hmwc, hmsc, ?_⟩
                    intro j e h1 h2
                    rcases lookup_put_cases st1 i (sig, .comp ws2, .comp ss2) j
                      with hc | ⟨_, rfl, hsome⟩
                    · rw [hc] at h2
                      obtain ⟨p, hp, hpj, hpw, hps⟩ := hnew2 j e h1 h2
                      exact ⟨p, by rw [idNodes]; exact List.mem_cons_of_mem _ hp,
                        hpj, hpw, hps⟩
                    · rw [hsome] at h2
                      injection h2 with he
                      subst he
                      exact ⟨(i, .branch i a b ls), hself, rfl, hmwc, hmsc⟩

lemma mirP_all (l : Layer) : MirP l := mirP_all_aux (sizeOf l) l le_rfl

/-- C8 (confirmed).  After initialization the weights (and state) of every
layer mirror its structure: a leaf's weights are the empty sentinel or leaf
data (never a combinator sequence), and a combinator's weights are the ordered
sequence of its sublayers' weights; concretely, `Serial(Relu(), LayerNorm())`
initialized on a 3x5 signature yields weights `[(), (ones, zeros)]` exactly as
the notebook prints them. -/
theorem init_weights_mirror (L : Layer) (sig : List ShapeDtype) (k : Key)
    (w s : Weights) (st' : Store) (log : List Nat)
    (hsc : SharedConsistent L) (hok : LeafInitsOk L)
    (h : initL L sig k [] = .ok ((w, s), st', log)) :
    mirrorsW L w = true ∧ mirrorsW L s = true ∧
    resWS (initL layerBlock [⟨[3, 5], 0⟩] (prngKey 0) []) =
      .ok (.comp [.empty, .leafData [[[1, 1, 1, 1, 1]], [[0, 0, 0, 0, 0]]]],
           .comp [.empty, .empty]) := by
  have hsm : StoreMir [] L := by
    intro p hp e he
    simp [lookupStore] at he
  obtain ⟨h1, h2, _⟩ := mirP_all L sig k [] w s st' log hsc hok hsm h
  refine ⟨h1, h2, ?_⟩
  simp [layerBlock, mkSerial, mkLeaf, initL, initSerial, sigOut, lookupStore, storePut,
    arityOf, reluSpec, layerNormSpec, pureInit, featuresOf, serialArity, minDepth, netGain,
    List.take, List.drop, resWS, List.replicate]

/-- Witness for `init_weights_mirror`: the notebook's `layer_block` tree,
initialized from the empty store on the 3x5 signature. -/
theorem init_weights_mirror_witness :
    mirrorsW layerBlock
        (.comp [.empty, .leafData [[[1, 1, 1, 1, 1]], [[0, 0, 0, 0, 0]]]]) = true ∧
    mirrorsW layerBlock (.comp [.empty, .empty]) = true ∧
    resWS (initL layerBlock [⟨[3, 5], 0⟩] (prngKey 0) []) =
      .ok (.comp [.empty, .leafData [[[1, 1, 1, 1, 1]], [[0, 0, 0, 0, 0]]]],
           .comp [.empty, .empty]) := by
  refine init_weights_mirror layerBlock [⟨[3, 5], 0⟩] (prngKey 0)
    (.comp [.empty, .leafData [[[1, 1, 1, 1, 1]], [[0, 0, 0, 0, 0]]]])
    (.comp [.empty, .empty])
    [(1, ([⟨[3, 5], 0⟩], .empty, .empty)),
     (2, ([⟨[3, 5], 0⟩], .leafData [[[1, 1, 1, 1, 1]], [[0, 0, 0, 0, 0]]], .empty)),
     (0, ([⟨[3, 5], 0⟩],
          .comp [.empty, .leafData [[[1, 1, 1, 1, 1]], [[0, 0, 0, 0, 0]]]],
          .comp [.empty, .empty]))]
    [1, 2, 0] ?_ ?_ ?_
  · intro p hp q hq hh
    simp only [layerBlock, mkSerial, mkLeaf, idNodes, idNodesList, List.append_nil,
      List.mem_cons, List.mem_singleton, List.mem_append, List.not_mem_nil,
      or_false] at hp hq
    rcases hp with hp | hp | hp <;> rcases hq with hq | hq | hq <;>
      rw [hp, hq] <;> rw [hp, hq] at hh <;> first | rfl | (exfalso; simp at hh)
  · intro p hp i sp hpl k2 sig2
    simp only [layerBlock, mkSerial, mkLeaf, idNodes, idNodesList, List.append_nil,
      List.mem_cons, List.mem_singleton, List.mem_append, List.not_mem_nil,
      or_false] at hp
    rcases hp with hp | hp | hp <;> rw [hp] at hpl
    · cases hpl
    · injection hpl with hi hsp
      subst hsp
      constructor <;> simp [reluSpec, pureInit, mirrorsW]
    · injection hpl with hi hsp
      subst hsp
      constructor <;> simp [layerNormSpec, mirrorsW]
  · simp [layerBlock, mkSerial, mkLeaf, initL, initSerial, sigOut, lookupStore, storePut,
      arityOf, reluSpec, layerNormSpec, pureInit, featuresOf, serialArity, minDepth,
      netGain, List.take, List.drop, List.replicate]

lemma lsim_arity {l1 l2 : Layer} (h : LSim l1 l2) : arityOf l1 = arityOf l2 := by
  cases h <;> rfl

lemma sigSerial_lsim : ∀ (ls ls2 : List Layer), LSimList ls ls2 →
    (∀ l ∈ ls, ∀ l2, LSim l l2 → ∀ s, sigOut l s = sigOut l2 s) →
    ∀ s, sigSerial ls s = sigSerial ls2 s := by
  intro ls
  induction ls with
  | nil => intro ls2 hsim P s; cases hsim; rfl
  | cons l ls ih =>
      intro ls2 hsim P s
      cases hsim with
      | cons h1 hrest =>
          rename_i l2 ls2'
          rw [sigSerial, sigSerial, ← lsim_arity h1,
            ← P l (List.mem_cons_self l ls) l2 h1]
          by_cases hle : (arityOf l).1 ≤ s.length
          · rw [if_pos hle, if_pos hle]
            cases hso : sigOut l (s.take (arityOf l).1) with
            | none => rfl
            | some outs =>
                dsimp only
                exact ih ls2' hrest (fun l' hl' => P l' (List.mem_cons_of_mem l hl')) _
          · rw [if_neg hle, if_neg hle]

lemma sigBranch_lsim : ∀ (ls ls2 : List Layer), LSimList ls ls2 →
    (∀ l ∈ ls, ∀ l2, LSim l l2 → ∀ s, sigOut l s = sigOut l2 s) →
    ∀ s, sigBranch ls s = sigBranch ls2 s := by
  intro ls
  induction ls with
  | nil => intro ls2 hsim P s; cases hsim; rfl
  | cons l ls ih =>
      intro ls2 hsim P s
      cases hsim with
      | cons h1 hrest =>
          rename_i l2 ls2'
          rw [sigBranch, sigBranch, ← lsim_arity h1,
            ← P l (List.mem_cons_self l ls) l2 h1,
            ← ih ls2' hrest (fun l' hl' => P l' (List.mem_cons_of_mem l hl')) s]

lemma sigOut_lsim_aux : ∀ (n : Nat) (l1 : Layer), sizeOf l1 ≤ n →
    ∀ l2, LSim l1 l2 → ∀ s, sigOut l1 s = sigOut l2 s := by
  intro n
  induction n with
  | zero => intro l hl; exfalso; cases l <;> simp at hl
  | succ n ih =>
      intro l1 hl l2 hsim s
      cases hsim with
      | idpass => rfl
      | leaf i j sp => rw [sigOut, sigOut]
      | serial i j nI nO ls ls2 hlist =>
          have hmem : ∀ l' ∈ ls, sizeOf l' ≤ n := by
            intro l' hl'
            have h1 := List.sizeOf_lt_of_mem hl'
            have h2 := Layer.serial.sizeOf_spec i nI nO ls
            omega
          rw [sigOut, sigOut,
            sigSerial_lsim ls ls2 hlist (fun l' hl' => ih l' (hmem l' hl'))]
      | branch i j nI nO ls ls2 hlist =>
          have hmem : ∀ l' ∈ ls, sizeOf l' ≤ n := by
            intro l' hl'
            have h1 := List.sizeOf_lt_of_mem hl'
            have h2 := Layer.branch.sizeOf_spec i nI nO ls
            omega
          rw [sigOut, sigOut,
            sigBranch_lsim ls ls2 hlist (fun l' hl' => ih l' (hmem l' hl'))]

lemma sigOut_lsim {l1 l2 : Layer} (h : LSim l1 l2) (s : List ShapeDtype) :
    sigOut l1 s = sigOut l2 s :=
  sigOut_lsim_aux (sizeOf l1) l1 le_rfl l2 h s

lemma freshSerial_lsim : ∀ (ls ls2 : List Layer), LSimList ls ls2 →
    (∀ l ∈ ls, ∀ l2, LSim l l2 → ∀ sig k, freshInit l sig k = freshInit l2 sig k) →
    ∀ stack k, freshSerial ls stack k = freshSerial ls2 stack k := by
  intro ls
  induction ls with
  | nil => intro ls2 hsim P stack k; cases hsim; rfl
  | cons l ls ih =>
      intro ls2 hsim P stack k
      cases hsim with
      | cons h1 hrest =>
          rename_i l2 ls2'
          rw [freshSerial, freshSerial, ← lsim_arity h1,
            ← P l (List.mem_cons_self l ls) l2 h1,
            ← sigOut_lsim h1]
          by_cases hle : (arityOf l).1 ≤ stack.length
          · rw [if_pos hle, if_pos hle]
            cases hfi : freshInit l (stack.take (arityOf l).1) k with
            | error e => rfl
            | ok res =>
                dsimp only
                cases hso : sigOut l (stack.take (arityOf l).1) with
                | none => rfl
                | some outs =>
                    dsimp only
                    rw [ih ls2' hrest (fun l' hl' => P l' (List.mem_cons_of_mem l hl')) _ k]
          · rw [if_neg hle, if_neg hle]

lemma freshBranch_lsim : ∀ (ls ls2 : List Layer), LSimList ls ls2 →
    (∀ l ∈ ls, ∀ l2, LSim l l2 → ∀ sig k, freshInit l sig k = freshInit l2 sig k) →
    ∀ stack k, freshBranch ls stack k = freshBranch ls2 stack k := by
  intro ls
  induction ls with
  | nil => intro ls2 hsim P stack k; cases hsim; rfl
  | cons l ls ih =>
      intro ls2 hsim P stack k
      cases hsim with
      | cons h1 hrest =>
          rename_i l2 ls2'
          rw [freshBranch, freshBranch, ← lsim_arity h1,
            ← P l (List.mem_cons_self l ls) l2 h1,
            ← ih ls2' hrest (fun l' hl' => P l' (List.mem_cons_of_mem l hl')) stack k]

lemma freshInit_lsim_aux : ∀ (n : Nat) (l1 : Layer), sizeOf l1 ≤ n →
    ∀ l2, LSim l1 l2 → ∀ sig k, freshInit l1 sig k = freshInit l2 sig k := by
  intro n
  induction n with
  | zero => intro l hl; exfalso; cases l <;> simp at hl
  | succ n ih =>
      intro l1 hl l2 hsim sig k
      cases hsim with
      | idpass => rfl
      | leaf i j sp => rw [freshInit, freshInit]
      | serial i j nI nO ls ls2 hlist =>
          have hmem : ∀ l' ∈ ls, sizeOf l' ≤ n := by
            intro l' hl'
            have h1 := List.sizeOf_lt_of_mem hl'
            have h2 := Layer.serial.sizeOf_spec i nI nO ls
            omega
          rw [freshInit, freshInit,
            freshSerial_lsim ls ls2 hlist (fun l' hl' => ih l' (hmem l' hl'))]
      | branch i j nI nO ls ls2 hlist =>
          have hmem : ∀ l' ∈ ls, sizeOf l' ≤ n := by
            intro l' hl'
            have h1 := List.sizeOf_lt_of_mem hl'
            have h2 := Layer.branch.sizeOf_spec i nI nO ls
            omega
          rw [freshInit, freshInit,
            freshBranch_lsim ls ls2 hlist (fun l' hl' => ih l' (hmem l' hl'))]

lemma freshInit_lsim {l1 l2 : Layer} (h : LSim l1 l2) (sig : List ShapeDtype) (k : Key) :
    freshInit l1 sig k = freshInit l2 sig k :=
  freshInit_lsim_aux (sizeOf l1) l1 le_rfl l2 h sig k

lemma initSerial_fresh (ls : List Layer)
    (P : ∀ l ∈ ls, ∀ sig k st, (layerIds l).Nodup →
      (∀ i ∈ layerIds l, lookupStore st i = none) →
      resWS (initL l sig k st) = freshInit l sig k) :
    ∀ stack k st, (layerIdsList ls).Nodup →
      (∀ i ∈ layerIdsList ls, lookupStore st i = none) →
      resLWS (initSerial ls stack k st) = freshSerial ls stack k := by
  induction ls with
  | nil => intro stack k st hnod hdis; rw [initSerial, freshSerial]; rfl
  | cons l ls ih =>
      intro stack k st hnod hdis
      rw [layerIdsList_cons] at hnod hdis
      obtain ⟨hnod1, hnod2, hdisj⟩ := List.nodup_append.mp hnod
      have hdis1 : ∀ i ∈ layerIds l, lookupStore st i = none := by
        intro i hi; exact hdis i (List.mem_append_left _ hi)
      have hdis2 : ∀ i ∈ layerIdsList ls, lookupStore st i = none := by
        intro i hi; exact hdis i (List.mem_append_right _ hi)
      have hhead := P l (List.mem_cons_self l ls) (stack.take (arityOf l).1) k st hnod1 hdis1
      rw [initSerial, freshSerial]
      by_cases hle : (arityOf l).1 ≤ stack.length
      · rw [if_pos hle, if_pos hle]
        cases hinit : initL l (stack.take (arityOf l).1) k st with
        | error e =>
            rw [hinit] at hhead
            rw [← hhead]
            rfl
        | ok res =>
            obtain ⟨⟨w, s⟩, st1, log1⟩ := res
            rw [hinit] at hhead
            rw [← hhead]
            dsimp only
            cases hso : sigOut l (stack.take (arityOf l).1) with
            | none => rfl
            | some outs =>
                dsimp only
                have hdis2' : ∀ i ∈ layerIdsList ls, lookupStore st1 i = none := by
                  intro j hj
                  cases hmid : lookupStore st1 j with
                  | none => rfl
                  | some e =>
                      exfalso
                      obtain ⟨_, m2, _, _, _, _, _⟩ := initP_all l _ _ _ _ _ _ _ hinit
                      have hjl := m2 j (hdis2 j hj) (by rw [hmid]; simp)
                      exact hdisj hjl hj
                have := ih (fun l' hl' => P l' (List.mem_cons_of_mem l hl'))
                  (outs ++ stack.drop (arityOf l).1) k st1 hnod2 hdis2'
                cases hrest : initSerial ls (outs ++ stack.drop (arityOf l).1) k st1 with
                | error e =>
                    rw [hrest] at this
                    rw [← this]
                    rfl
                | ok res2 =>
                    obtain ⟨ws2, ss2, st2, log2⟩ := res2
                    rw [hrest] at this
                    rw [← this]
                    rfl
      · rw [if_neg hle, if_neg hle]
        rfl

lemma initBranch_fresh (ls : List Layer)
    (P : ∀ l ∈ ls, ∀ sig k st, (layerIds l).Nodup →
      (∀ i ∈ layerIds l, lookupStore st i = none) →
      resWS (initL l sig k st) = freshInit l sig k) :
    ∀ stack k st, (layerIdsList ls).Nodup →
      (∀ i ∈ layerIdsList ls, lookupStore st i = none) →
      resLWS (initBranch ls stack k st) = freshBranch ls stack k := by
  induction ls with
  | nil => intro stack k st hnod hdis; rw [initBranch, freshBranch]; rfl
  | cons l ls ih =>
      intro stack k st hnod hdis
      rw [layerIdsList_cons] at hnod hdis
      obtain ⟨hnod1, hnod2, hdisj⟩ := List.nodup_append.mp hnod
      have hdis1 : ∀ i ∈ layerIds l, lookupStore st i = none := by
        intro i hi; exact hdis i (List.mem_append_left _ hi)
      have hdis2 : ∀ i ∈ layerIdsList ls, lookupStore st i = none := by
        intro i hi; exact hdis i (List.mem_append_right _ hi)
      have hhead := P l (List.mem_cons_self l ls) (stack.take (arityOf l).1) k st hnod1 hdis1
      rw [initBranch, freshBranch]
      by_cases hle : (arityOf l).1 ≤ stack.length
      · rw [if_pos hle, if_pos hle]
        cases hinit : initL l (stack.take (arityOf l).1) k st with
        | error e =>
            rw [hinit] at hhead
            rw [← hhead]
            rfl
        | ok res =>
            obtain ⟨⟨w, s⟩, st1, log1⟩ := res
            rw [hinit] at hhead
            rw [← hhead]
            dsimp only
            have hdis2' : ∀ i ∈ layerIdsList ls, lookupStore st1 i = none := by
              intro j hj
              cases hmid : lookupStore st1 j with
              | none => rfl
              | some e =>
                  exfalso
                  obtain ⟨_, m2, _, _, _, _, _⟩ := initP_all l _ _ _ _ _ _ _ hinit
                  have hjl := m2 j (hdis2 j hj) (by rw [hmid]; simp)
                  exact hdisj hjl hj
            have := ih (fun l' hl' => P l' (List.mem_cons_of_mem l hl'))
              stack k st1 hnod2 hdis2'
            cases hrest : initBranch ls stack k st1 with
            | error e =>
                rw [hrest] at this
                rw [← this]
                rfl
            | ok res2 =>
                obtain ⟨ws2, ss2, st2, log2⟩ := res2
                rw [hrest] at this
                rw [← this]
                rfl
      · rw [if_neg hle, if_neg hle]
        rfl

lemma initL_fresh_aux : ∀ (n : Nat) (l : Layer), sizeOf l ≤ n →
    ∀ sig k st, (layerIds l).Nodup →
      (∀ i ∈ layerIds l, lookupStore st i = none) →
      resWS (initL l sig k st) = freshInit l sig k := by
  intro n
  induction n with
  | zero => intro l hl; exfalso; cases l <;> simp at hl
  | succ n ih =>
      intro l hl sig k st hnod hdis
      cases l with
      | idpass =>
          rw [initL, freshInit]
          by_cases hlen : sig.length = 1
          · rw [if_pos hlen, if_pos hlen]; rfl
          · rw [if_neg hlen, if_neg hlen]; rfl
      | leaf i sp =>
          have hlk := hdis i (by rw [layerIds_leaf]; simp)
          rw [initL, freshInit, hlk]
          dsimp only
          by_cases hlen : sig.length = sp.nIn
          · rw [if_pos hlen, if_pos hlen]; rfl
          · rw [if_neg hlen, if_neg hlen]; rfl
      | serial i a b ls =>
          have hmem : ∀ l' ∈ ls, sizeOf l' ≤ n := by
            intro l' hl'
            have h1 := List.sizeOf_lt_of_mem hl'
            have h2 := Layer.serial.sizeOf_spec i a b ls
            omega
          have hlk := hdis i (by rw [layerIds_serial]; simp)
          rw [layerIds_serial] at hnod hdis
          rw [initL, freshInit, hlk]
          dsimp only
          by_cases hlen : sig.length = a
          · rw [if_pos hlen, if_pos hlen]
            have hlist := initSerial_fresh ls
              (fun l' hl' sig' k' st' => ih l' (hmem l' hl') sig' k' st')
              sig k st (List.nodup_cons.mp hnod).2
              (fun j hj => hdis j (List.mem_cons_of_mem _ hj))
            cases hrun : initSerial ls sig k st with
            | error e =>
                rw [hrun] at hlist
                rw [← hlist]
                rfl
            | ok res =>
                obtain ⟨ws2, ss2, st1, log2⟩ := res
                rw [hrun] at hlist
                rw [← hlist]
                rfl
          · rw [if_neg hlen, if_neg hlen]; rfl
      | branch i a b ls =>
          have hmem : ∀ l' ∈ ls, sizeOf l' ≤ n := by
            intro l' hl'
            have h1 := List.sizeOf_lt_of_mem hl'
            have h2 := Layer.branch.sizeOf_spec i a b ls
            omega
          have hlk := hdis i (by rw [layerIds_branch]; simp)
          rw [layerIds_branch] at hnod hdis
          rw [initL, freshInit, hlk]
          dsimp only
          by_cases hlen : sig.length = a
          · rw [if_pos hlen, if_pos hlen]
            have hlist := initBranch_fresh ls
              (fun l' hl' sig' k' st' => ih l' (hmem l' hl') sig' k' st')
              sig k st (List.nodup_cons.mp hnod).2
              (fun j hj => hdis j (List.mem_cons_of_mem _ hj))
            cases hrun : initBranch ls sig k st with
            | error e =>
                rw [hrun] at hlist
                rw [← hlist]
                rfl
            | ok res =>
                obtain ⟨ws2, ss2, st1, log2⟩ := res
                rw [hrun] at hlist
                rw [← hlist]
                rfl
          · rw [if_neg hlen, if_neg hlen]; rfl

lemma initL_fresh (l : Layer) (sig : List ShapeDtype) (k : Key) (st : Store)
    (hnod : (layerIds l).Nodup) (hdis : ∀ i ∈ layerIds l, lookupStore st i = none) :
    resWS (initL l sig k st) = freshInit l sig k :=
  initL_fresh_aux (sizeOf l) l le_rfl sig k st hnod hdis

/-- C9 (confirmed).  `init` without an rng is deterministic: `rng=None` means
the default key derived from the integer seed 0, and two identically
constructed fresh (unshared) layer trees - same shape and leaf behaviours,
arbitrary distinct object identities - initialized on the same signature with
no rng argument produce equal weights and state. -/
theorem init_default_rng_deterministic :
    (∀ (L : Layer) (sig : List ShapeDtype) (st : Store),
        Layer.init L sig none st = initL L sig (prngKey 0) st) ∧
    (∀ (L1 L2 : Layer) (sig : List ShapeDtype),
        LSim L1 L2 → (layerIds L1).Nodup → (layerIds L2).Nodup →
        resWS (Layer.init L1 sig none []) = resWS (Layer.init L2 sig none [])) := by
  refine ⟨fun L sig st => rfl, ?_⟩
  intro L1 L2 sig hsim h1 h2
  rw [Layer.init, Layer.init]
  rw [initL_fresh L1 sig _ [] h1 (fun i _ => rfl),
    initL_fresh L2 sig _ [] h2 (fun i _ => rfl)]
  exact freshInit_lsim hsim sig _

/-- Witness for `init_default_rng_deterministic`: two separately allocated
copies of `Serial(LayerNorm())` (identities 0/1 versus 10/11) initialized on
the 3x5 signature with `rng=None`. -/
theorem init_default_rng_deterministic_witness :
    resWS (Layer.init (mkSerial 0 [mkLeaf 1 layerNormSpec]) [⟨[3, 5], 0⟩] none []) =
      resWS (Layer.init (mkSerial 10 [mkLeaf 11 layerNormSpec]) [⟨[3, 5], 0⟩] none []) :=
  init_default_rng_deterministic.2 (mkSerial 0 [mkLeaf 1 layerNormSpec]) (mkSerial 10 [mkLeaf 11 layerNormSpec])
    [⟨[3, 5], 0⟩]
    (LSim.serial 0 10 _ _ _ _ (LSimList.cons (LSim.leaf 1 11 layerNormSpec) LSimList.nil))
    (by simp [layerIds, idNodes, idNodesList, mkSerial, mkLeaf])
    (by simp [layerIds, idNodes, idNodesList, mkSerial, mkLeaf])
